import Mathlib

/-!
Verification of the snippet extraction tool (aws_doc_sdk_examples_tools/snippets.py).

This file gives a shallow embedding of the tag parser, collector, cross-reference
validator and emitter, together with theorems settling the specification claims.

Modelling conventions:
- Python strings become Lean `String`/`List Char`; the handful of Python string
  primitives the source uses (`find`, slicing with a possibly negative end index,
  `strip`, substring membership) are embedded faithfully below.
- Python `dict` (insertion ordered, unique keys) becomes an association list;
  `set` becomes an insertion-ordered duplicate-free list (the source only uses
  membership, add and remove, so iteration order never matters for the claims).
- The filesystem is modelled explicitly: an `FS` value maps paths to contents,
  and existence checks become lookups.  I/O exceptions are out of the model.
-/

set_option autoImplicit false

namespace Snippets

/-! ### Python string primitives -/

/-- First index at which `pat` occurs in `s`, if any (Python `str.find` restricted
to a successful hit; the `-1` failure case is handled by `pyFind`). -/
def listFindIdx : List Char → List Char → Option Nat
  | [], pat => if pat.isEmpty then some 0 else none
  | c :: rest, pat =>
    if pat.isPrefixOf (c :: rest) then some 0 else (listFindIdx rest pat).map (· + 1)

/-- Python `tok in line` for strings. -/
def strContains (line tok : String) : Bool :=
  (listFindIdx line.toList tok.toList).isSome

/-- Python `line.find(tok, start)`: first index `≥ start` where `tok` occurs,
`-1` when there is none. -/
def pyFind (line tok : String) (start : Nat) : Int :=
  match listFindIdx (line.toList.drop start) tok.toList with
  | some j => ((start + j : Nat) : Int)
  | none => -1

/-- ASCII whitespace as recognised by Python `str.strip()` (the inputs here are
source-code lines, so the further Unicode whitespace cases do not arise). -/
def isPySpace (c : Char) : Bool :=
  c = ' ' || c = '\t' || c = '\n' || c = '\r' || c = Char.ofNat 11 || c = Char.ofNat 12

/-- Python `str.strip()`. -/
def pyStrip (s : List Char) : List Char :=
  ((s.dropWhile isPySpace).reverse.dropWhile isPySpace).reverse

/-- Python slice `s[a:b]` for `0 ≤ a` and an `Int` end index `b` (the source only
produces `b = -1`, meaning "up to the last character exclusive", or `b ≥ 0`). -/
def pySliceTo (s : List Char) (a : Nat) (b : Int) : List Char :=
  let bn : Nat := if b < 0 then ((s.length : Int) + b).toNat else b.toNat
  (s.drop a).take (bn - a)

/-! ### Tag syntax (snippets.py lines 16-17, 84-87) -/

def SNIPPET_START : String := "snippet-start:["

def SNIPPET_END : String := "snippet-end:["

/-- Embedding of `_tag_from_line(token, line, prefix)`:
`tag_start = line.find(token) + len(token)`, `tag_end = line.find("]", tag_start)`,
result `prefix + line[tag_start:tag_end].strip()`. -/
def _tag_from_line (token line pfx : String) : String :=
  let tagStart : Nat := (pyFind line token 0 + (token.length : Int)).toNat
  let tagEnd : Int := pyFind line "]" tagStart
  pfx ++ String.mk (pyStrip (pySliceTo line.toList tagStart tagEnd))

/-- The specification's words for tag extraction when no closing bracket follows
the marker: "treat the remainder of the line as the tag text", trimmed, prefixed.
Stated as its own definition so it can be compared with `_tag_from_line`. -/
def tagFromLineSpecNoBracket (token line pfx : String) : String :=
  let tagStart : Nat := (pyFind line token 0 + (token.length : Int)).toNat
  pfx ++ String.mk (pyStrip (line.toList.drop tagStart))

/-! ### Data model (snippets.py lines 20-26, 29-59) -/

structure Snippet where
  id : String
  file : String
  line_start : Nat
  line_end : Int
  code : String
deriving DecidableEq

/-- The four malformation diagnostics the parser can emit
(`DuplicateSnippetStartError`, `MissingSnippetStartError`,
`DuplicateSnippetEndError`, `MissingSnippetEndError`). -/
inductive SnippetErr where
  | duplicateStart (file : String) (line : Nat) (tag : String)
  | missingStart (file : String) (line : Nat) (tag : String)
  | duplicateEnd (file : String) (line : Nat) (tag : String)
  | missingEnd (file : String) (line : Nat) (tag : String)
deriving DecidableEq

/-- Python `Dict[str, Snippet]`: insertion-ordered association list with unique keys. -/
abbrev SnippetDict := List (String × Snippet)

/-- Python `snippets[tag]` lookup (first — and with unique keys, only — hit). -/
def dictFind : SnippetDict → String → Option Snippet
  | [], _ => none
  | (k, v) :: rest, t => if k = t then some v else dictFind rest t

/-- In-place mutation of the entry with key `k` (Python `snippets[tag].field = v`). -/
def dictModify (d : SnippetDict) (k : String) (f : Snippet → Snippet) : SnippetDict :=
  d.map fun p => if p.1 = k then (p.1, f p.2) else p

/-! ### Tag parser (snippets.py lines 90-135) -/

/-- The `for tag in open_tags: snippets[tag].code += line` update: append `line`
to the code of every snippet whose tag is currently open. -/
def appendOpenCode (open_tags : List String) (line : String) (d : SnippetDict) :
    SnippetDict :=
  d.map fun p =>
    if p.1 ∈ open_tags then (p.1, { p.2 with code := p.2.code ++ line }) else p

structure ParseState where
  snippets : SnippetDict
  errors : List SnippetErr
  open_tags : List String
deriving DecidableEq

/-- One iteration of the `for line_idx, line in enumerate(lines)` loop of
`parse_snippets`. -/
def processLine (file pfx : String) (st : ParseState) (line_idx : Nat) (line : String) :
    ParseState :=
  if strContains line SNIPPET_START then
    let tag := _tag_from_line SNIPPET_START line pfx
    if (dictFind st.snippets tag).isSome then
      { st with errors := st.errors ++ [SnippetErr.duplicateStart file line_idx tag] }
    else
      { st with
        snippets := st.snippets ++ [(tag, ⟨tag, file, line_idx, -1, ""⟩)],
        open_tags := st.open_tags ++ [tag] }
  else if strContains line SNIPPET_END then
    let tag := _tag_from_line SNIPPET_END line pfx
    if dictFind st.snippets tag = none then
      { st with errors := st.errors ++ [SnippetErr.missingStart file line_idx tag] }
    else if tag ∈ st.open_tags then
      { st with
        open_tags := st.open_tags.filter (· ≠ tag),
        snippets := dictModify st.snippets tag fun s => { s with line_end := (line_idx : Int) } }
    else
      { st with errors := st.errors ++ [SnippetErr.duplicateEnd file line_idx tag] }
  else
    { st with snippets := appendOpenCode st.open_tags line st.snippets }

/-- The enumerate loop of `parse_snippets`, with `i` the index of the next line. -/
def parseLoop (file pfx : String) : ParseState → Nat → List String → ParseState
  | st, _, [] => st
  | st, i, l :: rest => parseLoop file pfx (processLine file pfx st i l) (i + 1) rest

/-- Embedding of `parse_snippets(lines, file, prefix)`: run the loop from the empty
state, then emit one missing-end diagnostic per still-open tag, at that tag's
`line_start`. -/
def parse_snippets (lines : List String) (file pfx : String) :
    SnippetDict × List SnippetErr :=
  let st := parseLoop file pfx ⟨[], [], []⟩ 0 lines
  (st.snippets,
    st.errors ++ st.open_tags.map fun t =>
      SnippetErr.missingEnd file ((dictFind st.snippets t).elim 0 Snippet.line_start) t)

/-! ### Derived vocabulary used to state the claims -/

/-- A plain line: contains neither marker, so the scanning loop appends it to every
open snippet's code. -/
def isPlain (line : String) : Bool :=
  !strContains line SNIPPET_START && !strContains line SNIPPET_END

def strConcat (ls : List String) : String := ls.foldl (· ++ ·) ""

/-- Concatenation of the plain lines of `lines` with index strictly between
`a` and `b`. -/
def codeBetween (lines : List String) (a b : Nat) : String :=
  strConcat (((lines.take b).drop (a + 1)).filter isPlain)

/-- Does this line open tag `t` (under `pfx`) when scanned? -/
def isStartLineFor (pfx t line : String) : Bool :=
  strContains line SNIPPET_START && (_tag_from_line SNIPPET_START line pfx == t)

def startIdxsFrom (pfx t : String) : List String → Nat → List Nat
  | [], _ => []
  | l :: rest, i =>
    (if isStartLineFor pfx t l then [i] else []) ++ startIdxsFrom pfx t rest (i + 1)

/-- Indices of the lines that carry a start marker whose extracted (prefixed) tag
is `t`. -/
def startIdxs (pfx t : String) (lines : List String) : List Nat :=
  startIdxsFrom pfx t lines 0

def isDupStartFor (t : String) : SnippetErr → Bool
  | SnippetErr.duplicateStart _ _ t' => t' == t
  | _ => false

def isMissingEndFor (t : String) : SnippetErr → Bool
  | SnippetErr.missingEnd _ _ t' => t' == t
  | _ => false

def isAnyMissingEnd : SnippetErr → Bool
  | SnippetErr.missingEnd _ _ _ => true
  | _ => false

/-! ### Snippet collector (snippets.py lines 138-159)

`collect_snippets` walks the files yielded by the external enumerator
(`get_files`, a collaborator outside this module) and merges each file's parse
into one accumulator with `dict.update` / list `extend`.  The enumeration and
the reading of each file are modelled by handing the collector the already-read
list of `(fileName, lines)` pairs. -/

/-- Python `d[k] = v`: replace in place when the key exists, append otherwise. -/
def dictInsert : SnippetDict → String → Snippet → SnippetDict
  | [], k, v => [(k, v)]
  | (k', v') :: rest, k, v =>
    if k' = k then (k', v) :: rest else (k', v') :: dictInsert rest k v

/-- Python `d.update(news)`: set every entry of `news`, in order. -/
def dictUpdate (d news : SnippetDict) : SnippetDict :=
  news.foldl (fun acc p => dictInsert acc p.1 p.2) d

/-- One file of the `collect_snippets` loop: `snippets.update(snips)`,
`errors.extend(errs)`. -/
def collectStep (pfx : String) (acc : SnippetDict × List SnippetErr)
    (f : String × List String) : SnippetDict × List SnippetErr :=
  let r := parse_snippets f.2 f.1 pfx
  (dictUpdate acc.1 r.1, acc.2 ++ r.2)

/-- Embedding of `collect_snippets`. -/
def collect_snippets (pfx : String) (files : List (String × List String)) :
    SnippetDict × List SnippetErr :=
  files.foldl (collectStep pfx) ([], [])

/-- The snippet the last file defining tag `t` parsed for it — the "last file wins"
reading of the merge. -/
def lastDefined (pfx : String) (files : List (String × List String)) (t : String) :
    Option Snippet :=
  files.foldl
    (fun acc f =>
      match dictFind (parse_snippets f.2 f.1 pfx).1 t with
      | some s => some s
      | none => acc)
    none

/-! ### Cross-reference validator (snippets.py lines 162-230) -/

/-- The characters of `win_unsafe_re` (snippets.py line 187). -/
def winUnsafeChars : List Char := [':', '*', '?', '\"', '<', '>', '|']

/-- Python `re.search(win_unsafe_re, s)` is truthy iff some character of `s` is
Windows-reserved. -/
def containsWinUnsafe (s : String) : Bool :=
  s.toList.any fun c => c ∈ winUnsafeChars

/-- Modelled from the spec: the `ExampleCatalog` shape of §3 (the `Example` class
lives in metadata.py, which is not part of this module): an excerpt carries the
snippet tags and snippet files it depends on. -/
structure Excerpt where
  snippet_tags : List String
  snippet_files : List String
deriving DecidableEq

/-- Modelled from the spec: one per-SDK-version entry of a language. -/
structure SdkVersion where
  sdk_version : String
  excerpts : List Excerpt
deriving DecidableEq

/-- Modelled from the spec: the per-language record (its `versions`). -/
structure LanguageRec where
  versions : List SdkVersion
deriving DecidableEq

/-- Modelled from the spec: one example of the catalog — its metadata file and its
languages mapping (insertion-ordered, as a Python dict). -/
structure Example where
  file : String
  languages : List (String × LanguageRec)
deriving DecidableEq

/-- The validator's diagnostics (`MissingSnippet`, `MissingSnippetFile`,
`WindowsUnsafeSnippetFile`), each carrying the example file, the
`"{lang}:{sdk_version}"` id and the offending tag or path. -/
inductive ValErr where
  | missingSnippet (file eid tag : String)
  | missingSnippetFile (file eid snippet_file : String)
  | windowsUnsafeSnippetFile (file eid snippet_file : String)
deriving DecidableEq

/-- The state `validate_snippets` threads: the `snippet_files` output set
(Python `set`, modelled as an insertion-ordered duplicate-free list) and the
caller-supplied error accumulator. -/
structure VState where
  snippet_files : List String
  errors : List ValErr
deriving DecidableEq

/-- Python `set.add`. -/
def setAdd (s : List String) (x : String) : List String :=
  if x ∈ s then s else s ++ [x]

/-- The body of the `for snippet_file in excerpt.snippet_files` loop: existence
check, Windows-reserved-character check, then add to the output set.  `fileExists
sf` models `(root / snippet_file).exists()`. -/
def processSnippetFile (exFile eid : String) (fileExists : String → Bool)
    (st : VState) (sf : String) : VState :=
  let st1 :=
    if fileExists sf then st
    else { st with errors := st.errors ++ [ValErr.missingSnippetFile exFile eid sf] }
  let st2 :=
    if containsWinUnsafe sf then
      { st1 with errors := st1.errors ++ [ValErr.windowsUnsafeSnippetFile exFile eid sf] }
    else st1
  { st2 with snippet_files := setAdd st2.snippet_files sf }

/-- The body of the `for snippet_tag in excerpt.snippet_tags` loop. -/
def processTag (exFile eid : String) (snippets : SnippetDict) (st : VState)
    (tg : String) : VState :=
  if dictFind snippets tg = none then
    { st with errors := st.errors ++ [ValErr.missingSnippet exFile eid tg] }
  else st

def processExcerpt (exFile eid : String) (snippets : SnippetDict)
    (fileExists : String → Bool) (st : VState) (exc : Excerpt) : VState :=
  exc.snippet_files.foldl (processSnippetFile exFile eid fileExists)
    (exc.snippet_tags.foldl (processTag exFile eid snippets) st)

def processVersion (exFile lang : String) (snippets : SnippetDict)
    (fileExists : String → Bool) (st : VState) (v : SdkVersion) : VState :=
  v.excerpts.foldl
    (processExcerpt exFile (lang ++ ":" ++ v.sdk_version) snippets fileExists) st

def processLanguage (exFile : String) (snippets : SnippetDict)
    (fileExists : String → Bool) (st : VState) (p : String × LanguageRec) : VState :=
  p.2.versions.foldl (processVersion exFile p.1 snippets fileExists) st

def processExample (snippets : SnippetDict) (fileExists : String → Bool)
    (st : VState) (ex : Example) : VState :=
  ex.languages.foldl (processLanguage ex.file snippets fileExists) st

/-- Embedding of `validate_snippets(examples, snippets, snippet_files, errors, root)`,
with the filesystem abstracted to the `fileExists` predicate on root-relative paths. -/
def validate_snippets (examples : List Example) (snippets : SnippetDict)
    (snippet_files : List String) (errors : List ValErr)
    (fileExists : String → Bool) : VState :=
  examples.foldl (processExample snippets fileExists) ⟨snippet_files, errors⟩

/-- Some excerpt of the catalog declares snippet file `sf`. -/
def declaresSnippetFile (examples : List Example) (sf : String) : Prop :=
  ∃ ex ∈ examples, ∃ p ∈ ex.languages, ∃ v ∈ p.2.versions, ∃ exc ∈ v.excerpts,
    sf ∈ exc.snippet_files

/-! ### Snippet emitter (snippets.py lines 62-73, 233-245) -/

/-- The emitter's diagnostics (`SnippetAlreadyWritten`, `SnippetWriteError`).
`writeFailed` mirrors the exception branch of the source; writes never fail in
the pure filesystem model, so it is never produced here. -/
inductive WriteErr where
  | alreadyWritten (file : String)
  | writeFailed (file : String)
deriving DecidableEq

/-- The filesystem, as the emitter observes it: a list of (path, content) entries. -/
structure FS where
  entries : List (String × String)
deriving DecidableEq

/-- Python `Path.exists()`. -/
def FS.pathExists (fs : FS) (p : String) : Bool :=
  fs.entries.any fun e => e.1 == p

/-- Creating a file with the given content (only ever called on a fresh path). -/
def FS.write (fs : FS) (p c : String) : FS :=
  ⟨fs.entries ++ [(p, c)]⟩

/-- The artifact path, `root / f"{tag}.txt"`. -/
def artifactName (root tag : String) : String := root ++ "/" ++ tag ++ ".txt"

/-- One tag of the `write_snippets` loop: skip with an already-written diagnostic
when the artifact exists, otherwise write the snippet's code. -/
def writeStep (root : String) (acc : FS × List WriteErr) (ts : String × Snippet) :
    FS × List WriteErr :=
  let name := artifactName root ts.1
  if acc.1.pathExists name then (acc.1, acc.2 ++ [WriteErr.alreadyWritten name])
  else (acc.1.write name ts.2.code, acc.2)

/-- Embedding of `write_snippets(root, snippets)`.  Returns the resulting
filesystem and the diagnostics. -/
def write_snippets (root : String) (snippets : SnippetDict) (fs : FS) :
    FS × List WriteErr :=
  snippets.foldl (writeStep root) (fs, [])

/-- The loop invariant of `parse_snippets`: after scanning `processed`, the state
`st` describes exactly the tags, scopes, codes and duplicate-start diagnostics of
the processed prefix. -/
structure Inv (file pfx : String) (processed : List String) (st : ParseState) :
    Prop where
  keysNodup : (st.snippets.map Prod.fst).Nodup
  openNodup : st.open_tags.Nodup
  openKeys : ∀ t ∈ st.open_tags, ∃ s, (t, s) ∈ st.snippets
  noMissingEndYet : ∀ e ∈ st.errors, isAnyMissingEnd e = false
  entryId : ∀ t s, (t, s) ∈ st.snippets → s.id = t ∧ s.file = file
  entryStart : ∀ t s, (t, s) ∈ st.snippets →
    s.line_start < processed.length ∧
    ∃ rest, startIdxs pfx t processed = s.line_start :: rest
  entryOpen : ∀ t s, (t, s) ∈ st.snippets → (t ∈ st.open_tags ↔ s.line_end = -1)
  entryCodeOpen : ∀ t s, (t, s) ∈ st.snippets → s.line_end = -1 →
    s.code = codeBetween processed s.line_start processed.length
  entryCodeClosed : ∀ t s, (t, s) ∈ st.snippets → s.line_end ≠ -1 →
    ∃ e : Nat, s.line_end = (e : Int) ∧ s.line_start < e ∧ e < processed.length ∧
      s.code = codeBetween processed s.line_start e
  dupErrs : ∀ t s, (t, s) ∈ st.snippets →
    st.errors.filter (isDupStartFor t) =
      ((startIdxs pfx t processed).drop 1).map fun k =>
        SnippetErr.duplicateStart file k t
  absent : ∀ t, dictFind st.snippets t = none →
    startIdxs pfx t processed = [] ∧ st.errors.filter (isDupStartFor t) = []

/-! ## Theorems -/

/-- Claim C2: parsing the six-line example file yields exactly one snippet,
tag1, with code "b\nc\n", lineStart 1, lineEnd 4, and no diagnostics. -/
theorem claim_C2 (file : String) :
    parse_snippets ["a\n", "snippet-start:[tag1]\n", "b\n", "c\n",
        "snippet-end:[tag1]\n", "d\n"] file "" =
      ([("tag1", ⟨"tag1", file, 1, 4, "b\nc\n"⟩)], []) := rfl

/-- Claim C4, counterexample: on a line with no closing bracket after the
marker, the code's tag is the remainder minus its last character ("tag"), not
the trimmed remainder the spec promises ("tag1"). -/
theorem claim_C4_counterexample :
    _tag_from_line SNIPPET_START "snippet-start:[tag1" "" = "tag" ∧
    tagFromLineSpecNoBracket SNIPPET_START "snippet-start:[tag1" "" = "tag1" ∧
    _tag_from_line SNIPPET_START "snippet-start:[tag1" "" ≠
      tagFromLineSpecNoBracket SNIPPET_START "snippet-start:[tag1" "" := by
  decide

/-- Claim C4 (amended): when no closing bracket follows the marker, extraction
is total and returns the remainder of the line after the marker with its final
character removed (the Python slice ends at index -1), trimmed and prefixed. -/
theorem claim_C4 (token line pfx : String)
    (hc : strContains line token = true)
    (hnb : pyFind line "]" ((pyFind line token 0 + (token.length : Int)).toNat) = -1) :
    _tag_from_line token line pfx =
      pfx ++ String.mk (pyStrip
        ((line.toList.drop ((pyFind line token 0 + (token.length : Int)).toNat)).dropLast)) := by
  unfold _tag_from_line
  dsimp only
  rw [hnb]
  congr 2
  unfold pySliceTo
  rw [List.dropLast_eq_take]
  simp only [if_pos (by omega : (-1 : Int) < 0)]
  congr 1
  simp [List.length_drop]
  omega


theorem claim_C4_witness :
    (strContains "snippet-start:[tag1" SNIPPET_START = true ∧
      pyFind "snippet-start:[tag1" "]"
        ((pyFind "snippet-start:[tag1" SNIPPET_START 0 +
          (SNIPPET_START.length : Int)).toNat) = -1) ∧
    _tag_from_line SNIPPET_START "snippet-start:[tag1" "" =
      "" ++ String.mk (pyStrip
        ((("snippet-start:[tag1".toList).drop
          ((pyFind "snippet-start:[tag1" SNIPPET_START 0 +
            (SNIPPET_START.length : Int)).toNat)).dropLast)) :=
  ⟨⟨by decide, by decide⟩,
    claim_C4 SNIPPET_START "snippet-start:[tag1" "" (by decide) (by decide)⟩

/-- Claim C10: a line containing the start marker (even if it also contains the
end marker) is treated solely as a start tag: the open set changes only per the
start rule, every existing snippet survives unchanged (no close recorded, no
code appended), and the only possible new diagnostic is a duplicate-start. -/
theorem claim_C10 (file pfx : String) (st : ParseState) (i : Nat) (l : String)
    (hs : strContains l SNIPPET_START = true)
    (he : strContains l SNIPPET_END = true) :
    (processLine file pfx st i l).open_tags =
      (if (dictFind st.snippets (_tag_from_line SNIPPET_START l pfx)).isSome
        then st.open_tags
        else st.open_tags ++ [_tag_from_line SNIPPET_START l pfx]) ∧
    (∀ p ∈ st.snippets, p ∈ (processLine file pfx st i l).snippets) ∧
    (∀ e ∈ (processLine file pfx st i l).errors,
      e ∈ st.errors ∨
        e = SnippetErr.duplicateStart file i (_tag_from_line SNIPPET_START l pfx)) := by
  by_cases h : (dictFind st.snippets (_tag_from_line SNIPPET_START l pfx)).isSome
  · simp only [processLine, hs, if_true, h, if_pos]
    refine ⟨by simp [h], fun p hp => hp, fun e hee => ?_⟩
    rcases List.mem_append.mp hee with h1 | h2
    · exact Or.inl h1
    · exact Or.inr (List.mem_singleton.mp h2)
  · simp only [processLine, hs, if_true, h, if_neg, if_false]
    refine ⟨by simp [h], fun p hp => List.mem_append_left _ hp, fun e hee => Or.inl hee⟩


theorem dictFind_mem {d : SnippetDict} {t : String} {s : Snippet}
    (h : dictFind d t = some s) : (t, s) ∈ d := by
  induction d with
  | nil => simp [dictFind] at h
  | cons p rest ih =>
    obtain ⟨k, v⟩ := p
    by_cases hk : k = t
    · subst hk
      simp [dictFind] at h
      simp [h]
    · simp [dictFind, hk] at h
      exact List.mem_cons_of_mem _ (ih h)

theorem mem_dictFind {d : SnippetDict} (hnd : (d.map Prod.fst).Nodup) {t : String}
    {s : Snippet} (h : (t, s) ∈ d) : dictFind d t = some s := by
  induction d with
  | nil => simp at h
  | cons p rest ih =>
    obtain ⟨k, v⟩ := p
    simp only [List.map_cons, List.nodup_cons] at hnd
    rcases List.mem_cons.mp h with h1 | h1
    · injection h1 with h2 h3
      subst h2; subst h3
      simp [dictFind]
    · have hk : k ≠ t := by
        intro hkt
        subst hkt
        exact hnd.1 (List.mem_map.mpr ⟨(k, s), h1, rfl⟩)
      simp [dictFind, hk]
      exact ih hnd.2 h1

theorem dictFind_eq_none {d : SnippetDict} {t : String} :
    dictFind d t = none ↔ ∀ s, (t, s) ∉ d := by
  induction d with
  | nil => simp [dictFind]
  | cons p rest ih =>
    obtain ⟨k, v⟩ := p
    constructor
    · intro h s hmem
      by_cases hk : k = t
      · subst hk; simp [dictFind] at h
      · simp only [dictFind, if_neg hk] at h
        rcases List.mem_cons.mp hmem with h1 | h1
        · injection h1 with h2 h3; exact hk h2.symm
        · exact (ih.mp h) s h1
    · intro h
      by_cases hk : k = t
      · subst hk; exact absurd (List.mem_cons_self _ _) (h v)
      · simp only [dictFind, if_neg hk]
        exact ih.mpr (fun s hs => h s (List.mem_cons_of_mem _ hs))
theorem dictFind_append_of_some {d₁ : SnippetDict} (d₂ : SnippetDict) {t : String}
    {s : Snippet} (h : dictFind d₁ t = some s) : dictFind (d₁ ++ d₂) t = some s := by
  induction d₁ with
  | nil => simp [dictFind] at h
  | cons p rest ih =>
    obtain ⟨k, v⟩ := p
    by_cases hk : k = t
    · subst hk
      simp only [dictFind, if_pos rfl] at h
      simp only [List.cons_append, dictFind, if_pos rfl]
      exact h
    · simp only [dictFind, if_neg hk] at h
      simp only [List.cons_append, dictFind, if_neg hk]
      exact ih h

theorem dictFind_append_of_none {d₁ : SnippetDict} (d₂ : SnippetDict) {t : String}
    (h : dictFind d₁ t = none) : dictFind (d₁ ++ d₂) t = dictFind d₂ t := by
  induction d₁ with
  | nil => simp
  | cons p rest ih =>
    obtain ⟨k, v⟩ := p
    by_cases hk : k = t
    · subst hk; simp [dictFind] at h
    · simp only [dictFind, if_neg hk] at h
      simp only [List.cons_append, dictFind, if_neg hk]
      exact ih h

theorem dictModify_map_fst (d : SnippetDict) (k : String) (f : Snippet → Snippet) :
    (dictModify d k f).map Prod.fst = d.map Prod.fst := by
  induction d with
  | nil => rfl
  | cons p rest ih =>
    by_cases hk : p.1 = k <;> simp [dictModify, hk] at ih ⊢ <;> exact ih

theorem dictFind_dictModify (d : SnippetDict) (k : String) (f : Snippet → Snippet)
    (t : String) :
    dictFind (dictModify d k f) t =
      if t = k then (dictFind d t).map f else dictFind d t := by
  induction d with
  | nil => simp [dictModify, dictFind]
  | cons p rest ih =>
    obtain ⟨k', v⟩ := p
    rw [show dictModify ((k', v) :: rest) k f =
        (if k' = k then (k', f v) else (k', v)) :: dictModify rest k f from rfl]
    by_cases hk : k' = k
    · rw [if_pos hk]
      by_cases ht : k' = t
      · subst ht
        rw [show dictFind ((k', f v) :: dictModify rest k f) k' = some (f v) from by
          simp [dictFind]]
        rw [show dictFind ((k', v) :: rest) k' = some v from by simp [dictFind]]
        simp [hk]
      · rw [show dictFind ((k', f v) :: dictModify rest k f) t =
            dictFind (dictModify rest k f) t from by simp [dictFind, ht]]
        rw [show dictFind ((k', v) :: rest) t = dictFind rest t from by
          simp [dictFind, ht]]
        exact ih
    · rw [if_neg hk]
      by_cases ht : k' = t
      · subst ht
        rw [show dictFind ((k', v) :: dictModify rest k f) k' = some v from by
          simp [dictFind]]
        rw [show dictFind ((k', v) :: rest) k' = some v from by simp [dictFind]]
        simp [hk]
      · rw [show dictFind ((k', v) :: dictModify rest k f) t =
            dictFind (dictModify rest k f) t from by simp [dictFind, ht]]
        rw [show dictFind ((k', v) :: rest) t = dictFind rest t from by
          simp [dictFind, ht]]
        exact ih

theorem mem_dictModify {d : SnippetDict} {k : String} {f : Snippet → Snippet}
    {p' : String × Snippet} (h : p' ∈ dictModify d k f) :
    ∃ p ∈ d, p' = if p.1 = k then (p.1, f p.2) else p := by
  obtain ⟨p, hp, hq⟩ := List.mem_map.mp h
  exact ⟨p, hp, hq.symm⟩

theorem mem_dictModify_of_mem {d : SnippetDict} {k : String} {f : Snippet → Snippet}
    {p : String × Snippet} (h : p ∈ d) :
    (if p.1 = k then (p.1, f p.2) else p) ∈ dictModify d k f :=
  List.mem_map.mpr ⟨p, h, rfl⟩
theorem strConcat_append_singleton (u : List String) (x : String) :
    strConcat (u ++ [x]) = strConcat u ++ x := by
  simp [strConcat, List.foldl_append]

theorem codeBetween_append_of_le {xs : List String} (l : String) {a b : Nat}
    (h : b ≤ xs.length) : codeBetween (xs ++ [l]) a b = codeBetween xs a b := by
  unfold codeBetween
  rw [List.take_append_eq_append_take, Nat.sub_eq_zero_of_le h, List.take_zero,
    List.append_nil]

theorem codeBetween_append_plain {xs : List String} {l : String} {a : Nat}
    (hp : isPlain l = true) (ha : a < xs.length) :
    codeBetween (xs ++ [l]) a (xs.length + 1) = codeBetween xs a xs.length ++ l := by
  unfold codeBetween
  rw [show xs.length + 1 = (xs ++ [l]).length by simp, List.take_length,
    List.take_length, List.drop_append_eq_append_drop,
    Nat.sub_eq_zero_of_le (by omega : a + 1 ≤ xs.length), List.drop_zero,
    List.filter_append]
  rw [show List.filter isPlain [l] = [l] from by simp [hp]]
  exact strConcat_append_singleton _ _

theorem codeBetween_append_marker {xs : List String} {l : String} (a : Nat)
    (hp : isPlain l = false) :
    codeBetween (xs ++ [l]) a (xs.length + 1) = codeBetween xs a xs.length := by
  unfold codeBetween
  rw [show xs.length + 1 = (xs ++ [l]).length by simp, List.take_length,
    List.take_length, List.drop_append_eq_append_drop, List.filter_append]
  rw [show List.filter isPlain ([l].drop (a + 1 - xs.length)) = [] from by
    rcases Nat.eq_zero_or_pos (a + 1 - xs.length) with h0 | h0
    · rw [h0]; simp [hp]
    · rw [List.drop_eq_nil_of_le
        (by simp only [List.length_cons, List.length_nil]; omega)]
      rfl]
  rw [List.append_nil]

theorem codeBetween_small {ys : List String} {a b : Nat} (h : b ≤ a + 1) :
    codeBetween ys a b = "" := by
  unfold codeBetween
  rw [List.drop_eq_nil_of_le (le_trans (List.length_take_le _ _) h)]
  rfl

theorem startIdxsFrom_append (pfx t : String) (xs : List String) (l : String) :
    ∀ i, startIdxsFrom pfx t (xs ++ [l]) i =
      startIdxsFrom pfx t xs i ++
        (if isStartLineFor pfx t l then [i + xs.length] else []) := by
  induction xs with
  | nil =>
    intro i
    simp [startIdxsFrom]
  | cons x rest ih =>
    intro i
    rw [List.cons_append,
      show startIdxsFrom pfx t (x :: (rest ++ [l])) i =
        (if isStartLineFor pfx t x then [i] else []) ++
          startIdxsFrom pfx t (rest ++ [l]) (i + 1) from rfl,
      ih (i + 1),
      show startIdxsFrom pfx t (x :: rest) i =
        (if isStartLineFor pfx t x then [i] else []) ++
          startIdxsFrom pfx t rest (i + 1) from rfl,
      List.append_assoc, List.length_cons,
      show i + 1 + rest.length = i + (rest.length + 1) by omega]

theorem startIdxs_append (pfx t : String) (xs : List String) (l : String) :
    startIdxs pfx t (xs ++ [l]) =
      startIdxs pfx t xs ++ (if isStartLineFor pfx t l then [xs.length] else []) := by
  unfold startIdxs
  rw [startIdxsFrom_append]
  simp

theorem key_not_mem_of_dictFind_none {d : SnippetDict} {t : String}
    (h : dictFind d t = none) : t ∉ d.map Prod.fst := by
  intro hmem
  obtain ⟨p, hp, hfst⟩ := List.mem_map.mp hmem
  exact (dictFind_eq_none.mp h p.2) (by rw [← hfst]; exact hp)

theorem nodup_append_singleton {α : Type} {u : List α} {x : α} (h : u.Nodup)
    (hx : x ∉ u) : (u ++ [x]).Nodup := by
  simp [List.nodup_append, h, hx]

theorem filter_append_singleton {α : Type} (p : α → Bool) (es : List α) (e : α) :
    (es ++ [e]).filter p = es.filter p ++ (if p e then [e] else []) := by
  rw [List.filter_append]
  congr 1
  cases hp : p e <;> simp [List.filter, hp]

theorem drop_one_append_singleton {α : Type} {u : List α} (x : α) (h : u ≠ []) :
    (u ++ [x]).drop 1 = u.drop 1 ++ [x] := by
  rw [List.drop_append_eq_append_drop,
    Nat.sub_eq_zero_of_le (by cases u with | nil => exact absurd rfl h | cons a l => simp),
    List.drop_zero]

theorem isPlain_false_of_start {l : String} (h : strContains l SNIPPET_START = true) :
    isPlain l = false := by
  simp [isPlain, h]

theorem isPlain_false_of_end {l : String} (h : strContains l SNIPPET_END = true) :
    isPlain l = false := by
  simp [isPlain, h]

theorem isPlain_true_of_neither {l : String} (h1 : strContains l SNIPPET_START = false)
    (h2 : strContains l SNIPPET_END = false) : isPlain l = true := by
  simp [isPlain, h1, h2]

theorem isStartLineFor_of_start {pfx l : String}
    (hs : strContains l SNIPPET_START = true) (t : String) :
    isStartLineFor pfx t l = (_tag_from_line SNIPPET_START l pfx == t) := by
  simp [isStartLineFor, hs]

theorem isStartLineFor_false_of_not_start {pfx l : String}
    (hs : strContains l SNIPPET_START = false) (t : String) :
    isStartLineFor pfx t l = false := by
  simp [isStartLineFor, hs]

theorem startIdxs_append_not_start {pfx l : String}
    (hs : strContains l SNIPPET_START = false) (t : String) (xs : List String) :
    startIdxs pfx t (xs ++ [l]) = startIdxs pfx t xs := by
  rw [startIdxs_append, isStartLineFor_false_of_not_start hs]
  simp

theorem inv_step_start_dup {file pfx : String} {xs : List String} {st : ParseState}
    (h : Inv file pfx xs st) {l : String}
    (hs : strContains l SNIPPET_START = true)
    (hdup : (dictFind st.snippets (_tag_from_line SNIPPET_START l pfx)).isSome = true) :
    Inv file pfx (xs ++ [l])
      { st with errors := st.errors ++
          [SnippetErr.duplicateStart file xs.length (_tag_from_line SNIPPET_START l pfx)] } := by
  set tag := _tag_from_line SNIPPET_START l pfx with htag
  have hstart : ∀ t, startIdxs pfx t (xs ++ [l]) =
      startIdxs pfx t xs ++ (if tag == t then [xs.length] else []) := fun t => by
    rw [startIdxs_append, isStartLineFor_of_start hs]
  have hplain : isPlain l = false := isPlain_false_of_start hs
  refine
    { keysNodup := h.keysNodup
      openNodup := h.openNodup
      openKeys := h.openKeys
      entryId := h.entryId
      entryOpen := h.entryOpen
      noMissingEndYet := ?_
      entryStart := ?_
      entryCodeOpen := ?_
      entryCodeClosed := ?_
      dupErrs := ?_
      absent := ?_ }
  · intro e he
    rcases List.mem_append.mp he with h1 | h1
    · exact h.noMissingEndYet e h1
    · rw [List.mem_singleton.mp h1]; rfl
  · intro t s hts
    obtain ⟨hlt, rest, hrest⟩ := h.entryStart t s hts
    refine ⟨by simp only [List.length_append, List.length_singleton]; omega, ?_⟩
    rw [hstart t, hrest]
    exact ⟨rest ++ (if tag == t then [xs.length] else []), by simp⟩
  · intro t s hts hle
    rw [h.entryCodeOpen t s hts hle,
      show (xs ++ [l]).length = xs.length + 1 by simp]
    exact (codeBetween_append_marker _ hplain).symm
  · intro t s hts hne
    obtain ⟨e, he1, he2, he3, he4⟩ := h.entryCodeClosed t s hts hne
    exact ⟨e, he1, he2, by simp only [List.length_append]; omega,
      by rw [he4]; exact (codeBetween_append_of_le l (le_of_lt he3)).symm⟩
  · intro t s hts
    obtain ⟨_, rest, hrest⟩ := h.entryStart t s hts
    rw [filter_append_singleton, h.dupErrs t s hts, hstart t]
    by_cases ht : tag = t
    · subst ht
      rw [show isDupStartFor tag (SnippetErr.duplicateStart file xs.length tag) = true
          from by simp [isDupStartFor]]
      simp only [beq_self_eq_true, if_true]
      rw [drop_one_append_singleton _ (by rw [hrest]; exact List.cons_ne_nil _ _),
        List.map_append]
      rfl
    · rw [show isDupStartFor t (SnippetErr.duplicateStart file xs.length tag) = false
          from by simp [isDupStartFor, ht],
        show (tag == t) = false from by simp [ht]]
      simp
  · intro t hnone
    have habs := h.absent t hnone
    have hne : tag ≠ t := by
      intro heq
      rw [heq, hnone] at hdup
      simp at hdup
    constructor
    · rw [hstart t, habs.1, show (tag == t) = false from by simp [hne]]
      rfl
    · rw [filter_append_singleton, habs.2,
        show isDupStartFor t (SnippetErr.duplicateStart file xs.length tag) = false
          from by simp [isDupStartFor, hne]]
      simp

theorem inv_step_start_new {file pfx : String} {xs : List String} {st : ParseState}
    (h : Inv file pfx xs st) {l : String}
    (hs : strContains l SNIPPET_START = true)
    (hnone : dictFind st.snippets (_tag_from_line SNIPPET_START l pfx) = none) :
    Inv file pfx (xs ++ [l])
      { st with
        snippets := st.snippets ++
          [(_tag_from_line SNIPPET_START l pfx,
            ⟨_tag_from_line SNIPPET_START l pfx, file, xs.length, -1, ""⟩)],
        open_tags := st.open_tags ++ [_tag_from_line SNIPPET_START l pfx] } := by
  set tag := _tag_from_line SNIPPET_START l pfx with htag
  have hstart : ∀ t, startIdxs pfx t (xs ++ [l]) =
      startIdxs pfx t xs ++ (if tag == t then [xs.length] else []) := fun t => by
    rw [startIdxs_append, isStartLineFor_of_start hs]
  have hplain : isPlain l = false := isPlain_false_of_start hs
  have hkey : tag ∉ st.snippets.map Prod.fst := key_not_mem_of_dictFind_none hnone
  have hopen : tag ∉ st.open_tags := by
    intro hmem
    obtain ⟨s, hsmem⟩ := h.openKeys tag hmem
    exact (dictFind_eq_none.mp hnone s) hsmem
  have holdne : ∀ {t : String} {s : Snippet}, (t, s) ∈ st.snippets → t ≠ tag := by
    intro t s hts heq
    subst heq
    exact (dictFind_eq_none.mp hnone s) hts
  refine
    { keysNodup := ?_
      openNodup := nodup_append_singleton h.openNodup hopen
      openKeys := ?_
      noMissingEndYet := h.noMissingEndYet
      entryId := ?_
      entryStart := ?_
      entryOpen := ?_
      entryCodeOpen := ?_
      entryCodeClosed := ?_
      dupErrs := ?_
      absent := ?_ }
  · rw [List.map_append]
    exact nodup_append_singleton h.keysNodup hkey
  · intro t htmem
    rcases List.mem_append.mp htmem with h1 | h1
    · obtain ⟨s, hsmem⟩ := h.openKeys t h1
      exact ⟨s, List.mem_append_left _ hsmem⟩
    · rw [List.mem_singleton.mp h1]
      exact ⟨_, List.mem_append_right _ (List.mem_singleton.mpr rfl)⟩
  · intro t s hts
    rcases List.mem_append.mp hts with h1 | h1
    · exact h.entryId t s h1
    · injection List.mem_singleton.mp h1 with h2 h3
      subst h2; subst h3
      exact ⟨rfl, rfl⟩
  · intro t s hts
    rcases List.mem_append.mp hts with h1 | h1
    · obtain ⟨hlt, rest, hrest⟩ := h.entryStart t s h1
      refine ⟨by simp only [List.length_append, List.length_singleton]; omega, ?_⟩
      rw [hstart t, hrest, show (tag == t) = false from by simp [(holdne h1).symm]]
      exact ⟨rest, by simp⟩
    · injection List.mem_singleton.mp h1 with h2 h3
      subst h2; subst h3
      refine ⟨by simp, ?_⟩
      rw [hstart tag, (h.absent tag hnone).1, show (tag == tag) = true from by simp]
      exact ⟨[], rfl⟩
  · intro t s hts
    rcases List.mem_append.mp hts with h1 | h1
    · have hne := holdne h1
      have : t ∈ st.open_tags ++ [tag] ↔ t ∈ st.open_tags := by
        constructor
        · intro hm
          rcases List.mem_append.mp hm with hm | hm
          · exact hm
          · exact absurd (List.mem_singleton.mp hm) hne
        · exact List.mem_append_left _
      rw [this]
      exact h.entryOpen t s h1
    · injection List.mem_singleton.mp h1 with h2 h3
      subst h2; subst h3
      exact iff_of_true (List.mem_append_right _ (List.mem_singleton.mpr rfl)) rfl
  · intro t s hts hle
    rcases List.mem_append.mp hts with h1 | h1
    · rw [h.entryCodeOpen t s h1 hle, show (xs ++ [l]).length = xs.length + 1 by simp]
      exact (codeBetween_append_marker _ hplain).symm
    · injection List.mem_singleton.mp h1 with h2 h3
      subst h2; subst h3
      rw [show (xs ++ [l]).length = xs.length + 1 by simp]
      exact (codeBetween_small (Nat.le_refl _)).symm
  · intro t s hts hne
    rcases List.mem_append.mp hts with h1 | h1
    · obtain ⟨e, he1, he2, he3, he4⟩ := h.entryCodeClosed t s h1 hne
      exact ⟨e, he1, he2, by simp only [List.length_append]; omega,
        by rw [he4]; exact (codeBetween_append_of_le l (le_of_lt he3)).symm⟩
    · injection List.mem_singleton.mp h1 with h2 h3
      subst h2; subst h3
      exact absurd rfl hne
  · intro t s hts
    rcases List.mem_append.mp hts with h1 | h1
    · rw [h.dupErrs t s h1, hstart t,
        show (tag == t) = false from by simp [(holdne h1).symm]]
      simp
    · injection List.mem_singleton.mp h1 with h2 h3
      subst h2; subst h3
      rw [(h.absent tag hnone).2, hstart tag, (h.absent tag hnone).1,
        show (tag == tag) = true from by simp]
      rfl
  · intro t hnone'
    have hsplit : dictFind st.snippets t = none ∧ t ≠ tag := by
      cases hfind : dictFind st.snippets t with
      | some s =>
        rw [dictFind_append_of_some _ hfind] at hnone'
        exact absurd hnone' (by simp)
      | none =>
        rw [dictFind_append_of_none _ hfind] at hnone'
        refine ⟨rfl, ?_⟩
        intro heq
        rw [show dictFind [(tag, (⟨tag, file, xs.length, -1, ""⟩ : Snippet))] t =
            if tag = t then some ⟨tag, file, xs.length, -1, ""⟩ else none from rfl,
          if_pos heq.symm] at hnone'
        exact absurd hnone' (by simp)
    constructor
    · rw [hstart t, (h.absent t hsplit.1).1,
        show (tag == t) = false from by
          simp only [beq_eq_false_iff_ne]
          exact fun he => hsplit.2 he.symm]
      rfl
    · exact (h.absent t hsplit.1).2

theorem inv_step_append_err {file pfx : String} {xs : List String} {st : ParseState}
    (h : Inv file pfx xs st) {l : String}
    (hs : strContains l SNIPPET_START = false) (hpl : isPlain l = false)
    {e : SnippetErr} (he1 : isAnyMissingEnd e = false)
    (he2 : ∀ t, isDupStartFor t e = false) :
    Inv file pfx (xs ++ [l]) { st with errors := st.errors ++ [e] } := by
  have hstart : ∀ t, startIdxs pfx t (xs ++ [l]) = startIdxs pfx t xs :=
    fun t => startIdxs_append_not_start hs t xs
  refine
    { keysNodup := h.keysNodup
      openNodup := h.openNodup
      openKeys := h.openKeys
      entryId := h.entryId
      entryOpen := h.entryOpen
      noMissingEndYet := ?_
      entryStart := ?_
      entryCodeOpen := ?_
      entryCodeClosed := ?_
      dupErrs := ?_
      absent := ?_ }
  · intro e' he'
    rcases List.mem_append.mp he' with h1 | h1
    · exact h.noMissingEndYet e' h1
    · rw [List.mem_singleton.mp h1]; exact he1
  · intro t s hts
    obtain ⟨hlt, rest, hrest⟩ := h.entryStart t s hts
    exact ⟨by simp only [List.length_append, List.length_singleton]; omega,
      rest, by rw [hstart t]; exact hrest⟩
  · intro t s hts hle
    rw [h.entryCodeOpen t s hts hle, show (xs ++ [l]).length = xs.length + 1 by simp]
    exact (codeBetween_append_marker _ hpl).symm
  · intro t s hts hne
    obtain ⟨e', he1', he2', he3', he4'⟩ := h.entryCodeClosed t s hts hne
    exact ⟨e', he1', he2', by simp only [List.length_append]; omega,
      by rw [he4']; exact (codeBetween_append_of_le l (le_of_lt he3')).symm⟩
  · intro t s hts
    rw [filter_append_singleton, h.dupErrs t s hts, hstart t, he2 t]
    simp
  · intro t hnone
    have habs := h.absent t hnone
    exact ⟨by rw [hstart t]; exact habs.1,
      by rw [filter_append_singleton, habs.2, he2 t]; simp⟩

theorem inv_step_end_close {file pfx : String} {xs : List String} {st : ParseState}
    (h : Inv file pfx xs st) {l tag : String}
    (hs : strContains l SNIPPET_START = false) (hpl : isPlain l = false)
    (hopen : tag ∈ st.open_tags) :
    Inv file pfx (xs ++ [l])
      { st with
        open_tags := st.open_tags.filter (· ≠ tag),
        snippets := dictModify st.snippets tag
          fun s => { s with line_end := (xs.length : Int) } } := by
  have hstart : ∀ t, startIdxs pfx t (xs ++ [l]) = startIdxs pfx t xs :=
    fun t => startIdxs_append_not_start hs t xs
  refine
    { keysNodup := ?_
      openNodup := h.openNodup.filter _
      openKeys := ?_
      noMissingEndYet := h.noMissingEndYet
      entryId := ?_
      entryStart := ?_
      entryOpen := ?_
      entryCodeOpen := ?_
      entryCodeClosed := ?_
      dupErrs := ?_
      absent := ?_ }
  · rw [dictModify_map_fst]
    exact h.keysNodup
  · intro t htmem
    replace htmem : t ∈ st.open_tags.filter (· ≠ tag) := htmem
    obtain ⟨ht1, ht2⟩ := List.mem_filter.mp htmem
    have htne : t ≠ tag := of_decide_eq_true ht2
    obtain ⟨s, hsmem⟩ := h.openKeys t ht1
    have := mem_dictModify_of_mem
      (k := tag) (f := fun s => { s with line_end := (xs.length : Int) }) hsmem
    rw [if_neg htne] at this
    exact ⟨s, this⟩
  · intro t s' hts'
    replace hts' : (t, s') ∈ dictModify st.snippets tag
        (fun s => { s with line_end := (xs.length : Int) }) := hts'
    obtain ⟨⟨t0, s⟩, hp, heq⟩ := mem_dictModify hts'
    by_cases h0 : t0 = tag
    · rw [if_pos h0] at heq
      injection heq with h2 h3
      subst h2; subst h3
      obtain ⟨hid, hfile⟩ := h.entryId t s hp
      exact ⟨hid, hfile⟩
    · rw [if_neg h0] at heq
      injection heq with h2 h3
      subst h2; subst h3
      exact h.entryId t s' hp
  · intro t s' hts'
    replace hts' : (t, s') ∈ dictModify st.snippets tag
        (fun s => { s with line_end := (xs.length : Int) }) := hts'
    obtain ⟨⟨t0, s⟩, hp, heq⟩ := mem_dictModify hts'
    by_cases h0 : t0 = tag
    · rw [if_pos h0] at heq
      injection heq with h2 h3
      subst h2; subst h3
      obtain ⟨hlt, rest, hrest⟩ := h.entryStart t s hp
      exact ⟨by simp only [List.length_append, List.length_singleton]; omega,
        rest, by rw [hstart t]; exact hrest⟩
    · rw [if_neg h0] at heq
      injection heq with h2 h3
      subst h2; subst h3
      obtain ⟨hlt, rest, hrest⟩ := h.entryStart t s' hp
      exact ⟨by simp only [List.length_append, List.length_singleton]; omega,
        rest, by rw [hstart t]; exact hrest⟩
  · intro t s' hts'
    replace hts' : (t, s') ∈ dictModify st.snippets tag
        (fun s => { s with line_end := (xs.length : Int) }) := hts'
    obtain ⟨⟨t0, s⟩, hp, heq⟩ := mem_dictModify hts'
    by_cases h0 : t0 = tag
    · rw [if_pos h0] at heq
      injection heq with h2 h3
      subst h2; subst h3
      rw [h0] at hp
      refine iff_of_false ?_ (by show ¬((xs.length : Int) = -1); omega)
      intro hmem
      exact absurd (of_decide_eq_true (List.mem_filter.mp hmem).2) (by rw [h0]; simp)
    · rw [if_neg h0] at heq
      injection heq with h2 h3
      subst h2; subst h3
      rw [show (t ∈ List.filter (fun x => x ≠ tag) st.open_tags) ↔ t ∈ st.open_tags from by
        constructor
        · intro hm; exact (List.mem_filter.mp hm).1
        · intro hm; exact List.mem_filter.mpr ⟨hm, decide_eq_true h0⟩]
      exact h.entryOpen t s' hp
  · intro t s' hts' hle
    replace hts' : (t, s') ∈ dictModify st.snippets tag
        (fun s => { s with line_end := (xs.length : Int) }) := hts'
    obtain ⟨⟨t0, s⟩, hp, heq⟩ := mem_dictModify hts'
    by_cases h0 : t0 = tag
    · rw [if_pos h0] at heq
      injection heq with h2 h3
      subst h2; subst h3
      exact absurd hle (by show ¬((xs.length : Int) = -1); omega)
    · rw [if_neg h0] at heq
      injection heq with h2 h3
      subst h2; subst h3
      rw [h.entryCodeOpen t s' hp hle, show (xs ++ [l]).length = xs.length + 1 by simp]
      exact (codeBetween_append_marker _ hpl).symm
  · intro t s' hts' hne
    replace hts' : (t, s') ∈ dictModify st.snippets tag
        (fun s => { s with line_end := (xs.length : Int) }) := hts'
    obtain ⟨⟨t0, s⟩, hp, heq⟩ := mem_dictModify hts'
    by_cases h0 : t0 = tag
    · rw [if_pos h0] at heq
      injection heq with h2 h3
      subst h2; subst h3
      rw [h0] at hp
      have hle : s.line_end = -1 := (h.entryOpen tag s hp).mp hopen
      have hcode := h.entryCodeOpen tag s hp hle
      have hlt := (h.entryStart tag s hp).1
      refine ⟨xs.length, rfl, hlt, by simp, ?_⟩
      show s.code = codeBetween (xs ++ [l]) s.line_start xs.length
      rw [hcode]
      exact (codeBetween_append_of_le l (Nat.le_refl _)).symm
    · rw [if_neg h0] at heq
      injection heq with h2 h3
      subst h2; subst h3
      obtain ⟨e, he1, he2, he3, he4⟩ := h.entryCodeClosed t s' hp hne
      exact ⟨e, he1, he2, by simp only [List.length_append]; omega,
        by rw [he4]; exact (codeBetween_append_of_le l (le_of_lt he3)).symm⟩
  · intro t s' hts'
    replace hts' : (t, s') ∈ dictModify st.snippets tag
        (fun s => { s with line_end := (xs.length : Int) }) := hts'
    obtain ⟨⟨t0, s⟩, hp, heq⟩ := mem_dictModify hts'
    by_cases h0 : t0 = tag
    · rw [if_pos h0] at heq
      injection heq with h2 h3
      subst h2; subst h3
      rw [hstart t]
      exact h.dupErrs t s hp
    · rw [if_neg h0] at heq
      injection heq with h2 h3
      subst h2; subst h3
      rw [hstart t]
      exact h.dupErrs t s' hp
  · intro t hnone'
    replace hnone' : dictFind (dictModify st.snippets tag
        fun s => { s with line_end := (xs.length : Int) }) t = none := hnone'
    rw [dictFind_dictModify] at hnone'
    by_cases h0 : t = tag
    · rw [if_pos h0] at hnone'
      have : dictFind st.snippets t = none := by
        cases hf : dictFind st.snippets t with
        | some s => rw [hf] at hnone'; exact absurd hnone' (by simp)
        | none => rfl
      obtain ⟨ha1, ha2⟩ := h.absent t this
      exact ⟨by rw [hstart t]; exact ha1, ha2⟩
    · rw [if_neg h0] at hnone'
      obtain ⟨ha1, ha2⟩ := h.absent t hnone'
      exact ⟨by rw [hstart t]; exact ha1, ha2⟩

theorem appendOpenCode_map_fst (o : List String) (l : String) (d : SnippetDict) :
    (appendOpenCode o l d).map Prod.fst = d.map Prod.fst := by
  induction d with
  | nil => rfl
  | cons p rest ih =>
    by_cases hk : p.1 ∈ o <;> simp [appendOpenCode, hk] at ih ⊢ <;> exact ih

theorem mem_appendOpenCode {o : List String} {l : String} {d : SnippetDict}
    {p' : String × Snippet} (h : p' ∈ appendOpenCode o l d) :
    ∃ p ∈ d, p' = if p.1 ∈ o then (p.1, { p.2 with code := p.2.code ++ l }) else p := by
  obtain ⟨p, hp, hq⟩ := List.mem_map.mp h
  exact ⟨p, hp, hq.symm⟩

theorem mem_appendOpenCode_of_mem {o : List String} {l : String} {d : SnippetDict}
    {p : String × Snippet} (h : p ∈ d) :
    (if p.1 ∈ o then (p.1, { p.2 with code := p.2.code ++ l }) else p) ∈
      appendOpenCode o l d :=
  List.mem_map.mpr ⟨p, h, rfl⟩

theorem dictFind_appendOpenCode (o : List String) (l : String) (d : SnippetDict)
    (t : String) :
    dictFind (appendOpenCode o l d) t =
      if t ∈ o then (dictFind d t).map (fun s => { s with code := s.code ++ l })
      else dictFind d t := by
  induction d with
  | nil => simp [appendOpenCode, dictFind]
  | cons p rest ih =>
    obtain ⟨k', v⟩ := p
    rw [show appendOpenCode o l ((k', v) :: rest) =
        (if k' ∈ o then (k', { v with code := v.code ++ l }) else (k', v)) ::
          appendOpenCode o l rest from rfl]
    by_cases ht : k' = t
    · subst ht
      by_cases hk : k' ∈ o
      · rw [if_pos hk,
          show dictFind ((k', { v with code := v.code ++ l }) ::
            appendOpenCode o l rest) k' = some { v with code := v.code ++ l } from by
              simp [dictFind],
          show dictFind ((k', v) :: rest) k' = some v from by simp [dictFind],
          if_pos hk]
        rfl
      · rw [if_neg hk,
          show dictFind ((k', v) :: appendOpenCode o l rest) k' = some v from by
            simp [dictFind],
          show dictFind ((k', v) :: rest) k' = some v from by simp [dictFind],
          if_neg hk]
    · have hstep : ∀ w : Snippet,
          dictFind ((k', w) :: appendOpenCode o l rest) t =
            dictFind (appendOpenCode o l rest) t := by
        intro w
        simp [dictFind, ht]
      by_cases hk : k' ∈ o
      · rw [if_pos hk, hstep, ih,
          show dictFind ((k', v) :: rest) t = dictFind rest t from by
            simp [dictFind, ht]]
      · rw [if_neg hk, hstep, ih,
          show dictFind ((k', v) :: rest) t = dictFind rest t from by
            simp [dictFind, ht]]

theorem inv_step_plain {file pfx : String} {xs : List String} {st : ParseState}
    (h : Inv file pfx xs st) {l : String}
    (hs : strContains l SNIPPET_START = false)
    (he : strContains l SNIPPET_END = false) :
    Inv file pfx (xs ++ [l])
      { st with snippets := appendOpenCode st.open_tags l st.snippets } := by
  have hpl : isPlain l = true := isPlain_true_of_neither hs he
  have hstart : ∀ t, startIdxs pfx t (xs ++ [l]) = startIdxs pfx t xs :=
    fun t => startIdxs_append_not_start hs t xs
  refine
    { keysNodup := ?_
      openNodup := h.openNodup
      openKeys := ?_
      noMissingEndYet := h.noMissingEndYet
      entryId := ?_
      entryStart := ?_
      entryOpen := ?_
      entryCodeOpen := ?_
      entryCodeClosed := ?_
      dupErrs := ?_
      absent := ?_ }
  · show (appendOpenCode st.open_tags l st.snippets).map Prod.fst |>.Nodup
    rw [appendOpenCode_map_fst]
    exact h.keysNodup
  · intro t htmem
    obtain ⟨s, hsmem⟩ := h.openKeys t htmem
    have := mem_appendOpenCode_of_mem (o := st.open_tags) (l := l) hsmem
    rw [if_pos htmem] at this
    exact ⟨_, this⟩
  · intro t s' hts'
    replace hts' : (t, s') ∈ appendOpenCode st.open_tags l st.snippets := hts'
    obtain ⟨⟨t0, s⟩, hp, heq⟩ := mem_appendOpenCode hts'
    by_cases h0 : t0 ∈ st.open_tags
    · rw [if_pos h0] at heq
      injection heq with h2 h3
      subst h2; subst h3
      exact h.entryId t s hp
    · rw [if_neg h0] at heq
      injection heq with h2 h3
      subst h2; subst h3
      exact h.entryId t s' hp
  · intro t s' hts'
    replace hts' : (t, s') ∈ appendOpenCode st.open_tags l st.snippets := hts'
    obtain ⟨⟨t0, s⟩, hp, heq⟩ := mem_appendOpenCode hts'
    by_cases h0 : t0 ∈ st.open_tags
    · rw [if_pos h0] at heq
      injection heq with h2 h3
      subst h2; subst h3
      obtain ⟨hlt, rest, hrest⟩ := h.entryStart t s hp
      exact ⟨by simp only [List.length_append, List.length_singleton]; omega,
        rest, by rw [hstart t]; exact hrest⟩
    · rw [if_neg h0] at heq
      injection heq with h2 h3
      subst h2; subst h3
      obtain ⟨hlt, rest, hrest⟩ := h.entryStart t s' hp
      exact ⟨by simp only [List.length_append, List.length_singleton]; omega,
        rest, by rw [hstart t]; exact hrest⟩
  · intro t s' hts'
    replace hts' : (t, s') ∈ appendOpenCode st.open_tags l st.snippets := hts'
    obtain ⟨⟨t0, s⟩, hp, heq⟩ := mem_appendOpenCode hts'
    by_cases h0 : t0 ∈ st.open_tags
    · rw [if_pos h0] at heq
      injection heq with h2 h3
      subst h2; subst h3
      exact h.entryOpen t s hp
    · rw [if_neg h0] at heq
      injection heq with h2 h3
      subst h2; subst h3
      exact h.entryOpen t s' hp
  · intro t s' hts' hle
    replace hts' : (t, s') ∈ appendOpenCode st.open_tags l st.snippets := hts'
    obtain ⟨⟨t0, s⟩, hp, heq⟩ := mem_appendOpenCode hts'
    by_cases h0 : t0 ∈ st.open_tags
    · rw [if_pos h0] at heq
      injection heq with h2 h3
      subst h2; subst h3
      have hle0 : s.line_end = -1 := hle
      have hcode := h.entryCodeOpen t s hp hle0
      have ha : s.line_start < xs.length := (h.entryStart t s hp).1
      show s.code ++ l = codeBetween (xs ++ [l]) s.line_start (xs ++ [l]).length
      rw [show (xs ++ [l]).length = xs.length + 1 by simp, hcode]
      exact (codeBetween_append_plain hpl ha).symm
    · rw [if_neg h0] at heq
      injection heq with h2 h3
      subst h2; subst h3
      exact absurd ((h.entryOpen t s' hp).mpr hle) h0
  · intro t s' hts' hne
    replace hts' : (t, s') ∈ appendOpenCode st.open_tags l st.snippets := hts'
    obtain ⟨⟨t0, s⟩, hp, heq⟩ := mem_appendOpenCode hts'
    by_cases h0 : t0 ∈ st.open_tags
    · rw [if_pos h0] at heq
      injection heq with h2 h3
      subst h2; subst h3
      exact absurd ((h.entryOpen t s hp).mp h0) hne
    · rw [if_neg h0] at heq
      injection heq with h2 h3
      subst h2; subst h3
      obtain ⟨e, he1, he2, he3, he4⟩ := h.entryCodeClosed t s' hp hne
      exact ⟨e, he1, he2, by simp only [List.length_append]; omega,
        by rw [he4]; exact (codeBetween_append_of_le l (le_of_lt he3)).symm⟩
  · intro t s' hts'
    replace hts' : (t, s') ∈ appendOpenCode st.open_tags l st.snippets := hts'
    obtain ⟨⟨t0, s⟩, hp, heq⟩ := mem_appendOpenCode hts'
    by_cases h0 : t0 ∈ st.open_tags
    · rw [if_pos h0] at heq
      injection heq with h2 h3
      subst h2; subst h3
      rw [hstart t]
      exact h.dupErrs t s hp
    · rw [if_neg h0] at heq
      injection heq with h2 h3
      subst h2; subst h3
      rw [hstart t]
      exact h.dupErrs t s' hp
  · intro t hnone'
    replace hnone' : dictFind (appendOpenCode st.open_tags l st.snippets) t = none :=
      hnone'
    rw [dictFind_appendOpenCode] at hnone'
    have : dictFind st.snippets t = none := by
      by_cases h0 : t ∈ st.open_tags
      · rw [if_pos h0] at hnone'
        cases hf : dictFind st.snippets t with
        | some s => rw [hf] at hnone'; exact absurd hnone' (by simp)
        | none => rfl
      · rw [if_neg h0] at hnone'; exact hnone'
    obtain ⟨ha1, ha2⟩ := h.absent t this
    exact ⟨by rw [hstart t]; exact ha1, ha2⟩

theorem inv_step {file pfx : String} {xs : List String} {st : ParseState}
    (h : Inv file pfx xs st) (l : String) :
    Inv file pfx (xs ++ [l]) (processLine file pfx st xs.length l) := by
  by_cases hs : strContains l SNIPPET_START = true
  · by_cases hdup :
        (dictFind st.snippets (_tag_from_line SNIPPET_START l pfx)).isSome = true
    · rw [show processLine file pfx st xs.length l =
          { st with errors := st.errors ++
              [SnippetErr.duplicateStart file xs.length
                (_tag_from_line SNIPPET_START l pfx)] } from by
        simp [processLine, hs, hdup]]
      exact inv_step_start_dup h hs hdup
    · have hnone : dictFind st.snippets (_tag_from_line SNIPPET_START l pfx) = none :=
        Option.not_isSome_iff_eq_none.mp hdup
      rw [show processLine file pfx st xs.length l =
          { st with
            snippets := st.snippets ++
              [(_tag_from_line SNIPPET_START l pfx,
                ⟨_tag_from_line SNIPPET_START l pfx, file, xs.length, -1, ""⟩)],
            open_tags := st.open_tags ++ [_tag_from_line SNIPPET_START l pfx] } from by
        simp [processLine, hs, hnone]]
      exact inv_step_start_new h hs hnone
  · have hs' : strContains l SNIPPET_START = false := by simpa using hs
    by_cases he : strContains l SNIPPET_END = true
    · have hpl : isPlain l = false := isPlain_false_of_end he
      cases hfind : dictFind st.snippets (_tag_from_line SNIPPET_END l pfx) with
      | none =>
        rw [show processLine file pfx st xs.length l =
            { st with errors := st.errors ++
                [SnippetErr.missingStart file xs.length
                  (_tag_from_line SNIPPET_END l pfx)] } from by
          simp [processLine, hs', he, hfind]]
        exact inv_step_append_err h hs' hpl rfl fun t => rfl
      | some s0 =>
        by_cases hmem : _tag_from_line SNIPPET_END l pfx ∈ st.open_tags
        · rw [show processLine file pfx st xs.length l =
              { st with
                open_tags := st.open_tags.filter (· ≠ _tag_from_line SNIPPET_END l pfx),
                snippets := dictModify st.snippets (_tag_from_line SNIPPET_END l pfx)
                  fun s => { s with line_end := (xs.length : Int) } } from by
            simp [processLine, hs', he, hfind, hmem]]
          exact inv_step_end_close h hs' hpl hmem
        · rw [show processLine file pfx st xs.length l =
              { st with errors := st.errors ++
                  [SnippetErr.duplicateEnd file xs.length
                    (_tag_from_line SNIPPET_END l pfx)] } from by
            simp [processLine, hs', he, hfind, hmem]]
          exact inv_step_append_err h hs' hpl rfl fun t => rfl
    · have he' : strContains l SNIPPET_END = false := by simpa using he
      rw [show processLine file pfx st xs.length l =
          { st with snippets := appendOpenCode st.open_tags l st.snippets } from by
        simp [processLine, hs', he']]
      exact inv_step_plain h hs' he'

theorem inv_loop {file pfx : String} :
    ∀ (rest xs : List String) (st : ParseState), Inv file pfx xs st →
      Inv file pfx (xs ++ rest) (parseLoop file pfx st xs.length rest) := by
  intro rest
  induction rest with
  | nil =>
    intro xs st h
    simpa using h
  | cons l rest ih =>
    intro xs st h
    rw [show parseLoop file pfx st xs.length (l :: rest) =
        parseLoop file pfx (processLine file pfx st xs.length l) (xs.length + 1) rest
      from rfl]
    have h2 := inv_step h l
    have h3 := ih (xs ++ [l]) _ h2
    rw [show (xs ++ [l]).length = xs.length + 1 from by simp, List.append_assoc] at h3
    simpa using h3

theorem inv_init (file pfx : String) : Inv file pfx [] ⟨[], [], []⟩ := by
  refine
    { keysNodup := by simp
      openNodup := by simp
      openKeys := by intro t ht; simp at ht
      noMissingEndYet := by intro e he; simp at he
      entryId := by intro t s hts; simp at hts
      entryStart := by intro t s hts; simp at hts
      entryOpen := by intro t s hts; simp at hts
      entryCodeOpen := by intro t s hts; simp at hts
      entryCodeClosed := by intro t s hts; simp at hts
      dupErrs := by intro t s hts; simp at hts
      absent := by intro t _; exact ⟨rfl, rfl⟩ }

theorem inv_parse (lines : List String) (file pfx : String) :
    Inv file pfx lines (parseLoop file pfx ⟨[], [], []⟩ 0 lines) := by
  have h := inv_loop lines [] ⟨[], [], []⟩ (inv_init file pfx)
  simpa using h

theorem filter_map_comm {α β : Type} (f : α → β) (p : β → Bool) (l : List α) :
    (l.map f).filter p = (l.filter fun a => p (f a)).map f := by
  induction l with
  | nil => rfl
  | cons a rest ih =>
    by_cases ha : p (f a) = true
    · simp only [List.map_cons, List.filter_cons, ha, if_true, List.map_cons, ih]
    · simp only [List.map_cons, List.filter_cons, ha, if_false, ih]
      simp

theorem filter_beq_single {u : List String} (hnd : u.Nodup) {t : String}
    (hmem : t ∈ u) : u.filter (· == t) = [t] := by
  induction u with
  | nil => simp at hmem
  | cons a rest ih =>
    have hnd' := List.nodup_cons.mp hnd
    by_cases ha : a = t
    · subst ha
      have hnotin : ∀ x ∈ rest, ¬(x == a) = true := by
        intro x hx hbeq
        rw [eq_of_beq hbeq] at hx
        exact hnd'.1 hx
      rw [show List.filter (· == a) (a :: rest) = a :: List.filter (· == a) rest from by
        simp [List.filter_cons]]
      rw [List.filter_eq_nil_iff.mpr hnotin]
    · have hmem' : t ∈ rest := by
        rcases List.mem_cons.mp hmem with h1 | h1
        · exact absurd h1.symm ha
        · exact h1
      rw [show List.filter (· == t) (a :: rest) = List.filter (· == t) rest from by
        simp [List.filter_cons, ha]]
      exact ih hnd'.2 hmem'

theorem isMissingEndFor_false_of_none {t : String} {e : SnippetErr}
    (h : isAnyMissingEnd e = false) : isMissingEndFor t e = false := by
  cases e <;> simp [isAnyMissingEnd, isMissingEndFor] at h ⊢

/-- The parse result is exactly the loop's final state. -/
theorem parse_snippets_eq (lines : List String) (file pfx : String) :
    parse_snippets lines file pfx =
      ((parseLoop file pfx ⟨[], [], []⟩ 0 lines).snippets,
        (parseLoop file pfx ⟨[], [], []⟩ 0 lines).errors ++
          (parseLoop file pfx ⟨[], [], []⟩ 0 lines).open_tags.map fun t =>
            SnippetErr.missingEnd file
              ((dictFind (parseLoop file pfx ⟨[], [], []⟩ 0 lines).snippets t).elim 0
                Snippet.line_start) t) := rfl

/-- Claim C6: every fully parsed snippet (line_end set, i.e. not -1) satisfies
lineStart < lineEnd. -/
theorem claim_C6 (lines : List String) (file pfx tag : String) (s : Snippet)
    (hmem : (tag, s) ∈ (parse_snippets lines file pfx).1)
    (hne : s.line_end ≠ -1) :
    (s.line_start : Int) < s.line_end := by
  have hinv := inv_parse lines file pfx
  have hmem' : (tag, s) ∈ (parseLoop file pfx ⟨[], [], []⟩ 0 lines).snippets := hmem
  obtain ⟨e, he1, he2, _, _⟩ := hinv.entryCodeClosed tag s hmem' hne
  rw [he1]
  exact_mod_cast he2

theorem claim_C6_witness :
    ((("tag1", (⟨"tag1", "f", 1, 4, "b\nc\n"⟩ : Snippet)) ∈
        (parse_snippets ["a\n", "snippet-start:[tag1]\n", "b\n", "c\n",
          "snippet-end:[tag1]\n", "d\n"] "f" "").1) ∧
      (⟨"tag1", "f", 1, 4, "b\nc\n"⟩ : Snippet).line_end ≠ -1) ∧
    (((⟨"tag1", "f", 1, 4, "b\nc\n"⟩ : Snippet).line_start : Int) <
      (⟨"tag1", "f", 1, 4, "b\nc\n"⟩ : Snippet).line_end) :=
  ⟨⟨by decide, by decide⟩,
    claim_C6 ["a\n", "snippet-start:[tag1]\n", "b\n", "c\n",
      "snippet-end:[tag1]\n", "d\n"] "f" "" "tag1" _ (by decide) (by decide)⟩

theorem pathExists_write_mono {fs : FS} {p : String} (h : fs.pathExists p = true)
    (q c : String) : (fs.write q c).pathExists p = true := by
  simp only [FS.pathExists, FS.write, List.any_append] at h ⊢
  simp [h]

theorem pathExists_write_self (fs : FS) (p c : String) :
    (fs.write p c).pathExists p = true := by
  simp [FS.pathExists, FS.write]

theorem writeStep_pathExists_mono {root : String} {acc : FS × List WriteErr}
    {ts : String × Snippet} {p : String} (h : acc.1.pathExists p = true) :
    ((writeStep root acc ts).1).pathExists p = true := by
  unfold writeStep
  dsimp only
  split
  · exact h
  · exact pathExists_write_mono h _ _

theorem writeFold_pathExists_mono (root : String) :
    ∀ (l : SnippetDict) (acc : FS × List WriteErr) (p : String),
      acc.1.pathExists p = true →
      ((l.foldl (writeStep root) acc).1).pathExists p = true := by
  intro l
  induction l with
  | nil => intro acc p h; exact h
  | cons a rest ih =>
    intro acc p h
    exact ih (writeStep root acc a) p (writeStep_pathExists_mono h)

theorem writeStep_pathExists_self (root : String) (acc : FS × List WriteErr)
    (ts : String × Snippet) :
    ((writeStep root acc ts).1).pathExists (artifactName root ts.1) = true := by
  unfold writeStep
  dsimp only
  split
  · assumption
  · exact pathExists_write_self _ _ _

theorem writeFold_all_exist (root : String) :
    ∀ (l : SnippetDict) (acc : FS × List WriteErr) (ts : String × Snippet),
      ts ∈ l →
      ((l.foldl (writeStep root) acc).1).pathExists (artifactName root ts.1) = true := by
  intro l
  induction l with
  | nil => intro acc ts hts; simp at hts
  | cons a rest ih =>
    intro acc ts hts
    rcases List.mem_cons.mp hts with h1 | h1
    · subst h1
      exact writeFold_pathExists_mono root rest _ _ (writeStep_pathExists_self root acc ts)
    · exact ih (writeStep root acc a) ts h1

theorem writeFold_all_skip (root : String) :
    ∀ (l : SnippetDict) (acc : FS × List WriteErr),
      (∀ ts ∈ l, acc.1.pathExists (artifactName root ts.1) = true) →
      l.foldl (writeStep root) acc =
        (acc.1, acc.2 ++ l.map fun ts => WriteErr.alreadyWritten (artifactName root ts.1)) := by
  intro l
  induction l with
  | nil => intro acc _; simp
  | cons a rest ih =>
    intro acc hall
    rw [show List.foldl (writeStep root) acc (a :: rest) =
        List.foldl (writeStep root) (writeStep root acc a) rest from rfl]
    rw [show writeStep root acc a =
        (acc.1, acc.2 ++ [WriteErr.alreadyWritten (artifactName root a.1)]) from by
      unfold writeStep
      dsimp only
      rw [if_pos (hall a (List.mem_cons_self _ _))]]
    rw [ih (acc.1, acc.2 ++ [WriteErr.alreadyWritten (artifactName root a.1)])
      (fun ts hts => hall ts (List.mem_cons_of_mem _ hts))]
    simp

/-- Claim C1, counterexample: in the nested-scope input, snippet A is fully parsed with
lineStart 0 and lineEnd 4, yet its code is not the concatenation of all lines
strictly between 0 and 4 — the two marker lines of B are omitted. -/
theorem claim_C1_counterexample :
    dictFind (parse_snippets ["snippet-start:[A]\n", "snippet-start:[B]\n", "x\n",
        "snippet-end:[B]\n", "snippet-end:[A]\n"] "f" "").1 "A" =
      some ⟨"A", "f", 0, 4, "x\n"⟩ ∧
    strConcat ((["snippet-start:[A]\n", "snippet-start:[B]\n", "x\n",
        "snippet-end:[B]\n", "snippet-end:[A]\n"].take 4).drop (0 + 1)) =
      "snippet-start:[B]\nx\nsnippet-end:[B]\n" ∧
    "x\n" ≠ "snippet-start:[B]\nx\nsnippet-end:[B]\n" := by
  decide

/-- Claim C1 (amended): every fully parsed snippet's code is exactly the concatenation
of the plain lines (lines carrying neither marker) strictly between lineStart and
lineEnd, in order. -/
theorem claim_C1 (lines : List String) (file pfx tag : String) (s : Snippet)
    (hmem : (tag, s) ∈ (parse_snippets lines file pfx).1)
    (hne : s.line_end ≠ -1) :
    ∃ e : Nat, s.line_end = (e : Int) ∧ s.line_start < e ∧
      s.code = codeBetween lines s.line_start e := by
  have hinv := inv_parse lines file pfx
  have hmem' : (tag, s) ∈ (parseLoop file pfx ⟨[], [], []⟩ 0 lines).snippets := hmem
  obtain ⟨e, he1, he2, _, he4⟩ := hinv.entryCodeClosed tag s hmem' hne
  exact ⟨e, he1, he2, he4⟩

theorem claim_C1_witness :
    ((("A", (⟨"A", "f", 0, 4, "x\n"⟩ : Snippet)) ∈
        (parse_snippets ["snippet-start:[A]\n", "snippet-start:[B]\n", "x\n",
          "snippet-end:[B]\n", "snippet-end:[A]\n"] "f" "").1) ∧
      (⟨"A", "f", 0, 4, "x\n"⟩ : Snippet).line_end ≠ -1) ∧
    ∃ e : Nat, (⟨"A", "f", 0, 4, "x\n"⟩ : Snippet).line_end = (e : Int) ∧
      (⟨"A", "f", 0, 4, "x\n"⟩ : Snippet).line_start < e ∧
      (⟨"A", "f", 0, 4, "x\n"⟩ : Snippet).code =
        codeBetween ["snippet-start:[A]\n", "snippet-start:[B]\n", "x\n",
          "snippet-end:[B]\n", "snippet-end:[A]\n"]
          (⟨"A", "f", 0, 4, "x\n"⟩ : Snippet).line_start e :=
  ⟨⟨by decide, by decide⟩,
    claim_C1 ["snippet-start:[A]\n", "snippet-start:[B]\n", "x\n",
      "snippet-end:[B]\n", "snippet-end:[A]\n"] "f" "" "A" _ (by decide) (by decide)⟩

/-- Claim C3, counterexample: an unterminated snippet is not absent from the result —
it stays in the mapping with line_end unset, and `write_snippets` still writes
its artifact. -/
theorem claim_C3_counterexample :
    dictFind (parse_snippets ["snippet-start:[t]\n", "x\n"] "f" "").1 "t" =
      some ⟨"t", "f", 0, -1, "x\n"⟩ ∧
    write_snippets "out" (parse_snippets ["snippet-start:[t]\n", "x\n"] "f" "").1 ⟨[]⟩ =
      (⟨[("out/t.txt", "x\n")]⟩, []) := by
  decide

/-- Claim C3 (amended): an unterminated snippet yields exactly one missing-end
diagnostic, at its lineStart; the snippet itself remains in the mapping and the
emitter still produces its artifact. -/
theorem claim_C3 (lines : List String) (file pfx tag : String) (s : Snippet)
    (hmem : (tag, s) ∈ (parse_snippets lines file pfx).1)
    (hopen : s.line_end = -1) :
    (parse_snippets lines file pfx).2.filter (isMissingEndFor tag) =
      [SnippetErr.missingEnd file s.line_start tag] ∧
    ∀ root : String,
      ((write_snippets root (parse_snippets lines file pfx).1 ⟨[]⟩).1).pathExists
        (artifactName root tag) = true := by
  have hinv := inv_parse lines file pfx
  have hmem' : (tag, s) ∈ (parseLoop file pfx ⟨[], [], []⟩ 0 lines).snippets := hmem
  have htag : tag ∈ (parseLoop file pfx ⟨[], [], []⟩ 0 lines).open_tags :=
    (hinv.entryOpen tag s hmem').mpr hopen
  constructor
  · show ((parseLoop file pfx ⟨[], [], []⟩ 0 lines).errors ++
        (parseLoop file pfx ⟨[], [], []⟩ 0 lines).open_tags.map fun t =>
          SnippetErr.missingEnd file
            ((dictFind (parseLoop file pfx ⟨[], [], []⟩ 0 lines).snippets t).elim 0
              Snippet.line_start) t).filter (isMissingEndFor tag) = _
    rw [List.filter_append,
      List.filter_eq_nil_iff.mpr (fun e he => by
        simp [isMissingEndFor_false_of_none (hinv.noMissingEndYet e he)]),
      filter_map_comm,
      show (fun t' => isMissingEndFor tag
          (SnippetErr.missingEnd file
            ((dictFind (parseLoop file pfx ⟨[], [], []⟩ 0 lines).snippets t').elim 0
              Snippet.line_start) t')) = (· == tag) from rfl,
      filter_beq_single hinv.openNodup htag]
    simp [mem_dictFind hinv.keysNodup hmem']
  · intro root
    exact writeFold_all_exist root _ (⟨[]⟩, []) (tag, s) hmem

theorem claim_C3_witness :
    ((("t", (⟨"t", "f", 0, -1, "x\n"⟩ : Snippet)) ∈
        (parse_snippets ["snippet-start:[t]\n", "x\n"] "f" "").1) ∧
      (⟨"t", "f", 0, -1, "x\n"⟩ : Snippet).line_end = -1) ∧
    ((parse_snippets ["snippet-start:[t]\n", "x\n"] "f" "").2.filter
        (isMissingEndFor "t") =
      [SnippetErr.missingEnd "f" (⟨"t", "f", 0, -1, "x\n"⟩ : Snippet).line_start "t"] ∧
    ∀ root : String,
      ((write_snippets root
          (parse_snippets ["snippet-start:[t]\n", "x\n"] "f" "").1 ⟨[]⟩).1).pathExists
        (artifactName root "t") = true) :=
  ⟨⟨by decide, by decide⟩,
    claim_C3 ["snippet-start:[t]\n", "x\n"] "f" "" "t" _ (by decide) (by decide)⟩

theorem claim_C10_witness :
    (strContains "snippet-start:[a] snippet-end:[a]" SNIPPET_START = true ∧
      strContains "snippet-start:[a] snippet-end:[a]" SNIPPET_END = true) ∧
    ((processLine "f" "" ⟨[], [], []⟩ 0 "snippet-start:[a] snippet-end:[a]").open_tags =
      (if (dictFind (⟨[], [], []⟩ : ParseState).snippets
            (_tag_from_line SNIPPET_START "snippet-start:[a] snippet-end:[a]" "")).isSome
        then (⟨[], [], []⟩ : ParseState).open_tags
        else (⟨[], [], []⟩ : ParseState).open_tags ++
          [_tag_from_line SNIPPET_START "snippet-start:[a] snippet-end:[a]" ""]) ∧
    (∀ p ∈ (⟨[], [], []⟩ : ParseState).snippets,
      p ∈ (processLine "f" "" ⟨[], [], []⟩ 0 "snippet-start:[a] snippet-end:[a]").snippets) ∧
    (∀ e ∈ (processLine "f" "" ⟨[], [], []⟩ 0 "snippet-start:[a] snippet-end:[a]").errors,
      e ∈ (⟨[], [], []⟩ : ParseState).errors ∨
        e = SnippetErr.duplicateStart "f" 0
          (_tag_from_line SNIPPET_START "snippet-start:[a] snippet-end:[a]" ""))) :=
  ⟨⟨by decide, by decide⟩,
    claim_C10 "f" "" ⟨[], [], []⟩ 0 "snippet-start:[a] snippet-end:[a]"
      (by decide) (by decide)⟩

/-- Claim C5: with exactly two start lines carrying the same prefixed tag, the parse
yields exactly one duplicate-start diagnostic, at the second occurrence's line;
the mapping keeps the first occurrence's snippet; and processing a duplicate
start line changes neither the snippet mapping nor the open-tag set. -/
theorem claim_C5 (lines : List String) (file pfx tag : String) (i j : Nat)
    (htwo : startIdxs pfx tag lines = [i, j]) :
    (parse_snippets lines file pfx).2.filter (isDupStartFor tag) =
      [SnippetErr.duplicateStart file j tag] ∧
    (∃ s, dictFind (parse_snippets lines file pfx).1 tag = some s ∧
      s.line_start = i ∧ s.id = tag) ∧
    ∀ (st : ParseState) (k : Nat) (l : String),
      strContains l SNIPPET_START = true →
      _tag_from_line SNIPPET_START l pfx = tag →
      (dictFind st.snippets tag).isSome = true →
      (processLine file pfx st k l).snippets = st.snippets ∧
      (processLine file pfx st k l).open_tags = st.open_tags := by
  have hinv := inv_parse lines file pfx
  have hfind : ∃ s, dictFind (parseLoop file pfx ⟨[], [], []⟩ 0 lines).snippets tag =
      some s := by
    cases hf : dictFind (parseLoop file pfx ⟨[], [], []⟩ 0 lines).snippets tag with
    | none =>
      have := (hinv.absent tag hf).1
      rw [htwo] at this
      exact absurd this (by simp)
    | some s => exact ⟨s, rfl⟩
  obtain ⟨s, hf⟩ := hfind
  have hmem := dictFind_mem hf
  refine ⟨?_, ⟨s, hf, ?_, (hinv.entryId tag s hmem).1⟩, ?_⟩
  · show ((parseLoop file pfx ⟨[], [], []⟩ 0 lines).errors ++
        (parseLoop file pfx ⟨[], [], []⟩ 0 lines).open_tags.map fun t =>
          SnippetErr.missingEnd file
            ((dictFind (parseLoop file pfx ⟨[], [], []⟩ 0 lines).snippets t).elim 0
              Snippet.line_start) t).filter (isDupStartFor tag) = _
    rw [List.filter_append, hinv.dupErrs tag s hmem, htwo,
      List.filter_eq_nil_iff.mpr (fun e he => by
        obtain ⟨t', ht', heq⟩ := List.mem_map.mp he
        rw [← heq]
        simp [isDupStartFor])]
    simp
  · obtain ⟨_, rest, hrest⟩ := hinv.entryStart tag s hmem
    rw [htwo] at hrest
    injection hrest with h1 h2
    exact h1.symm
  · intro st k l hstr htageq hdup
    have hstate : processLine file pfx st k l =
        { st with errors := st.errors ++ [SnippetErr.duplicateStart file k tag] } := by
      simp [processLine, hstr, htageq, hdup]
    rw [hstate]
    exact ⟨rfl, rfl⟩

theorem claim_C5_witness :
    (startIdxs "" "t" ["snippet-start:[t]\n", "a\n", "snippet-start:[t]\n"] = [0, 2]) ∧
    ((parse_snippets ["snippet-start:[t]\n", "a\n", "snippet-start:[t]\n"] "f" "").2.filter
        (isDupStartFor "t") = [SnippetErr.duplicateStart "f" 2 "t"] ∧
    (∃ s, dictFind
        (parse_snippets ["snippet-start:[t]\n", "a\n", "snippet-start:[t]\n"] "f" "").1
        "t" = some s ∧ s.line_start = 0 ∧ s.id = "t") ∧
    ∀ (st : ParseState) (k : Nat) (l : String),
      strContains l SNIPPET_START = true →
      _tag_from_line SNIPPET_START l "" = "t" →
      (dictFind st.snippets "t").isSome = true →
      (processLine "f" "" st k l).snippets = st.snippets ∧
      (processLine "f" "" st k l).open_tags = st.open_tags) :=
  ⟨by decide,
    claim_C5 ["snippet-start:[t]\n", "a\n", "snippet-start:[t]\n"] "f" "" "t" 0 2
      (by decide)⟩

/-- Claim C9: emitting against a populated directory skips with an already-written
diagnostic and changes nothing; hence a second run over the same output yields
one already-written diagnostic per tag and leaves the filesystem untouched. -/
theorem claim_C9 (root : String) (snippets : SnippetDict) (fs0 : FS) :
    ((write_snippets root snippets (write_snippets root snippets fs0).1).1 =
        (write_snippets root snippets fs0).1 ∧
      (write_snippets root snippets (write_snippets root snippets fs0).1).2 =
        snippets.map fun ts => WriteErr.alreadyWritten (artifactName root ts.1)) ∧
    ∀ (tag : String) (s : Snippet) (fs : FS),
      write_snippets root [(tag, s)] fs =
        if fs.pathExists (artifactName root tag)
        then (fs, [WriteErr.alreadyWritten (artifactName root tag)])
        else (fs.write (artifactName root tag) s.code, []) := by
  constructor
  · have hall : ∀ ts ∈ snippets,
        ((write_snippets root snippets fs0).1).pathExists (artifactName root ts.1) =
          true :=
      fun ts hts => writeFold_all_exist root snippets (fs0, []) ts hts
    have h2 : write_snippets root snippets (write_snippets root snippets fs0).1 =
        ((write_snippets root snippets fs0).1,
          [] ++ snippets.map fun ts => WriteErr.alreadyWritten (artifactName root ts.1)) :=
      writeFold_all_skip root snippets ((write_snippets root snippets fs0).1, []) hall
    rw [h2]
    exact ⟨rfl, by simp⟩
  · intro tag s fs
    show List.foldl (writeStep root) (fs, []) [(tag, s)] = _
    rw [show List.foldl (writeStep root) (fs, []) [(tag, s)] =
        writeStep root (fs, []) (tag, s) from rfl]
    unfold writeStep
    dsimp only
    by_cases h : fs.pathExists (artifactName root tag) = true
    · rw [if_pos h, if_pos h]
      rfl
    · rw [if_neg h, if_neg h]

theorem dictFind_dictInsert (d : SnippetDict) (k : String) (v : Snippet) (t : String) :
    dictFind (dictInsert d k v) t = if k = t then some v else dictFind d t := by
  induction d with
  | nil => simp [dictInsert, dictFind]
  | cons p rest ih =>
    obtain ⟨k', v'⟩ := p
    by_cases hk : k' = k
    · subst hk
      rw [show dictInsert ((k', v') :: rest) k' v = (k', v) :: rest from by
        simp [dictInsert]]
      by_cases ht : k' = t
      · subst ht
        simp [dictFind]
      · simp [dictFind, ht]
    · rw [show dictInsert ((k', v') :: rest) k v = (k', v') :: dictInsert rest k v from by
        simp [dictInsert, hk]]
      by_cases ht : k' = t
      · subst ht
        have hkt : ¬k = k' := fun h => hk h.symm
        simp [dictFind, hkt]
      · simp only [dictFind, if_neg ht]
        exact ih

theorem dictFind_none_of_not_key {d : SnippetDict} {t : String}
    (h : t ∉ d.map Prod.fst) : dictFind d t = none :=
  dictFind_eq_none.mpr fun s hs => h (List.mem_map.mpr ⟨(t, s), hs, rfl⟩)

theorem dictFind_dictUpdate :
    ∀ {news : SnippetDict}, (news.map Prod.fst).Nodup →
    ∀ (d : SnippetDict) (t : String),
      dictFind (dictUpdate d news) t =
        match dictFind news t with
        | some s => some s
        | none => dictFind d t := by
  intro news
  induction news with
  | nil => intro _ d t; rfl
  | cons p rest ih =>
    intro hnd d t
    obtain ⟨k, v⟩ := p
    have hnd2 : (k :: rest.map Prod.fst).Nodup := by simpa using hnd
    have hk1 : k ∉ rest.map Prod.fst := (List.nodup_cons.mp hnd2).1
    have hk2 : (rest.map Prod.fst).Nodup := (List.nodup_cons.mp hnd2).2
    rw [show dictUpdate d ((k, v) :: rest) = dictUpdate (dictInsert d k v) rest from rfl,
      ih hk2]
    by_cases hk : k = t
    · subst hk
      rw [show dictFind ((k, v) :: rest) k = some v from by simp [dictFind],
        dictFind_none_of_not_key hk1]
      show dictFind (dictInsert d k v) k = some v
      rw [dictFind_dictInsert, if_pos rfl]
    · rw [show dictFind ((k, v) :: rest) t = dictFind rest t from by simp [dictFind, hk]]
      cases hr : dictFind rest t with
      | some s => rfl
      | none =>
        show dictFind (dictInsert d k v) t = dictFind d t
        rw [dictFind_dictInsert, if_neg hk]

theorem parse_keysNodup (lines : List String) (file pfx : String) :
    ((parse_snippets lines file pfx).1.map Prod.fst).Nodup :=
  (inv_parse lines file pfx).keysNodup

theorem collect_fold_errors (pfx : String) :
    ∀ (files : List (String × List String)) (d : SnippetDict) (es : List SnippetErr),
      (files.foldl (collectStep pfx) (d, es)).2 =
        es ++ (files.map fun f => (parse_snippets f.2 f.1 pfx).2).join := by
  intro files
  induction files with
  | nil => intro d es; simp
  | cons f rest ih =>
    intro d es
    rw [show List.foldl (collectStep pfx) (d, es) (f :: rest) =
        List.foldl (collectStep pfx) (collectStep pfx (d, es) f) rest from rfl,
      show collectStep pfx (d, es) f =
        (dictUpdate d (parse_snippets f.2 f.1 pfx).1,
          es ++ (parse_snippets f.2 f.1 pfx).2) from rfl,
      ih]
    simp

theorem collect_fold_find (pfx : String) :
    ∀ (files : List (String × List String)) (d : SnippetDict) (es : List SnippetErr)
      (t : String),
      dictFind ((files.foldl (collectStep pfx) (d, es)).1) t =
        files.foldl
          (fun acc f =>
            match dictFind (parse_snippets f.2 f.1 pfx).1 t with
            | some s => some s
            | none => acc)
          (dictFind d t) := by
  intro files
  induction files with
  | nil => intro d es t; rfl
  | cons f rest ih =>
    intro d es t
    rw [show List.foldl (collectStep pfx) (d, es) (f :: rest) =
        List.foldl (collectStep pfx) (collectStep pfx (d, es) f) rest from rfl,
      show collectStep pfx (d, es) f =
        (dictUpdate d (parse_snippets f.2 f.1 pfx).1,
          es ++ (parse_snippets f.2 f.1 pfx).2) from rfl,
      ih _ _ t, dictFind_dictUpdate (parse_keysNodup f.2 f.1 pfx) d t]
    rfl

/-- Claim C7: the collector's mapping is "last file wins" per tag (no collision
diagnostic), and its diagnostics are exactly the per-file diagnostics in file
enumeration order. -/
theorem claim_C7 (pfx : String) (files : List (String × List String)) (t : String) :
    dictFind (collect_snippets pfx files).1 t = lastDefined pfx files t ∧
    (collect_snippets pfx files).2 =
      (files.map fun f => (parse_snippets f.2 f.1 pfx).2).join := by
  constructor
  · show dictFind ((files.foldl (collectStep pfx) ([], [])).1) t = _
    rw [collect_fold_find pfx files [] [] t]
    rfl
  · show (files.foldl (collectStep pfx) ([], [])).2 = _
    rw [collect_fold_errors pfx files [] []]
    rfl

theorem foldl_pred_mono {σ α : Type} (P : σ → Prop) (f : σ → α → σ)
    (mono : ∀ s a, P s → P (f s a)) :
    ∀ (l : List α) (s : σ), P s → P (l.foldl f s) := by
  intro l
  induction l with
  | nil => intro s h; exact h
  | cons a rest ih => intro s h; exact ih (f s a) (mono s a h)

theorem foldl_pred_reach {σ α : Type} (P : σ → Prop) (f : σ → α → σ)
    (mono : ∀ s a, P s → P (f s a)) (x : α) (hit : ∀ s, P (f s x)) :
    ∀ (l : List α) (s : σ), x ∈ l → P (l.foldl f s) := by
  intro l
  induction l with
  | nil => intro s h; simp at h
  | cons a rest ih =>
    intro s hx
    rcases List.mem_cons.mp hx with h1 | h1
    · subst h1
      exact foldl_pred_mono P f mono rest (f s x) (hit s)
    · exact ih (f s a) h1

theorem mem_errors_processSnippetFile {e : ValErr} (exF eid : String)
    (fe : String → Bool) (st : VState) (sf0 : String) (h : e ∈ st.errors) :
    e ∈ (processSnippetFile exF eid fe st sf0).errors := by
  unfold processSnippetFile
  by_cases h1 : fe sf0 = true <;> by_cases h2 : containsWinUnsafe sf0 = true <;>
    simp [h1, h2, List.mem_append, h]

theorem mem_errors_processTag {e : ValErr} (exF eid : String) (snippets : SnippetDict)
    (st : VState) (tg : String) (h : e ∈ st.errors) :
    e ∈ (processTag exF eid snippets st tg).errors := by
  unfold processTag
  by_cases h1 : dictFind snippets tg = none <;> simp [h1, List.mem_append, h]

theorem mem_files_processSnippetFile {x : String} (exF eid : String)
    (fe : String → Bool) (st : VState) (sf0 : String) (h : x ∈ st.snippet_files) :
    x ∈ (processSnippetFile exF eid fe st sf0).snippet_files := by
  unfold processSnippetFile
  by_cases h1 : fe sf0 = true <;> by_cases h2 : containsWinUnsafe sf0 = true <;>
    simp [h1, h2, setAdd] <;> split <;> simp [h]

theorem mem_files_processTag {x : String} (exF eid : String) (snippets : SnippetDict)
    (st : VState) (tg : String) (h : x ∈ st.snippet_files) :
    x ∈ (processTag exF eid snippets st tg).snippet_files := by
  unfold processTag
  by_cases h1 : dictFind snippets tg = none <;> simp [h1, h]

theorem hit_win {exF eid sf : String} {fe : String → Bool}
    (hwin : containsWinUnsafe sf = true) (st : VState) :
    ValErr.windowsUnsafeSnippetFile exF eid sf ∈
      (processSnippetFile exF eid fe st sf).errors := by
  unfold processSnippetFile
  by_cases h1 : fe sf = true <;> simp [h1, hwin, List.mem_append]

theorem hit_missing {exF eid sf : String} {fe : String → Bool}
    (hmiss : fe sf = false) (st : VState) :
    ValErr.missingSnippetFile exF eid sf ∈
      (processSnippetFile exF eid fe st sf).errors := by
  unfold processSnippetFile
  by_cases h2 : containsWinUnsafe sf = true <;>
    simp [hmiss, h2, List.mem_append]

theorem hit_file_added {exF eid sf : String} {fe : String → Bool} (st : VState) :
    sf ∈ (processSnippetFile exF eid fe st sf).snippet_files := by
  unfold processSnippetFile
  by_cases h1 : fe sf = true <;> by_cases h2 : containsWinUnsafe sf = true <;>
    simp [h1, h2, setAdd] <;> split <;> simp_all

theorem validate_reach {examples : List Example} {snippets : SnippetDict}
    {fe : String → Bool} {sfiles : List String} {errs : List ValErr}
    {ex : Example} {p : String × LanguageRec} {v : SdkVersion} {exc : Excerpt}
    {sf : String}
    (hex : ex ∈ examples) (hp : p ∈ ex.languages) (hv : v ∈ p.2.versions)
    (hexc : exc ∈ v.excerpts) (hsf : sf ∈ exc.snippet_files)
    (P : VState → Prop)
    (monoSF : ∀ exF eid st sf0, P st → P (processSnippetFile exF eid fe st sf0))
    (monoTag : ∀ exF eid st tg, P st → P (processTag exF eid snippets st tg))
    (hit : ∀ st, P (processSnippetFile ex.file (p.1 ++ ":" ++ v.sdk_version) fe st sf)) :
    P (validate_snippets examples snippets sfiles errs fe) := by
  have monoExc : ∀ exF eid st exc0, P st →
      P (processExcerpt exF eid snippets fe st exc0) := by
    intro exF eid st exc0 h
    unfold processExcerpt
    exact foldl_pred_mono P _ (fun s a h => monoSF exF eid s a h) _ _
      (foldl_pred_mono P _ (fun s a h => monoTag exF eid s a h) _ _ h)
  have monoVer : ∀ exF lang st v0, P st →
      P (processVersion exF lang snippets fe st v0) := by
    intro exF lang st v0 h
    unfold processVersion
    exact foldl_pred_mono P _ (fun s a h => monoExc _ _ s a h) _ _ h
  have monoLang : ∀ exF st p0, P st → P (processLanguage exF snippets fe st p0) := by
    intro exF st p0 h
    unfold processLanguage
    exact foldl_pred_mono P _ (fun s a h => monoVer _ _ s a h) _ _ h
  have hitExc : ∀ st,
      P (processExcerpt ex.file (p.1 ++ ":" ++ v.sdk_version) snippets fe st exc) := by
    intro st
    unfold processExcerpt
    exact foldl_pred_reach P _ (fun s a h => monoSF _ _ s a h) sf hit _ _ hsf
  have hitVer : ∀ st, P (processVersion ex.file p.1 snippets fe st v) := by
    intro st
    unfold processVersion
    exact foldl_pred_reach P _ (fun s a h => monoExc _ _ s a h) exc hitExc _ _ hexc
  have hitLang : ∀ st, P (processLanguage ex.file snippets fe st p) := by
    intro st
    unfold processLanguage
    exact foldl_pred_reach P _ (fun s a h => monoVer _ _ s a h) v hitVer _ _ hv
  have hitEx : ∀ st, P (processExample snippets fe st ex) := by
    intro st
    unfold processExample
    exact foldl_pred_reach P _ (fun s a h => monoLang _ s a h) p hitLang _ _ hp
  unfold validate_snippets
  exact foldl_pred_reach P _
    (fun s a h => by
      unfold processExample
      exact foldl_pred_mono P _ (fun s2 a2 h2 => monoLang _ s2 a2 h2) _ _ h)
    ex hitEx _ _ hex

/-- Claim C8: for every declared snippet file, the Windows-reserved-character check and
the existence check fire unconditionally and independently, and the file is added
to the output set in all cases. -/
theorem claim_C8 (examples : List Example) (snippets : SnippetDict)
    (sfiles : List String) (errs : List ValErr) (fe : String → Bool) (sf : String)
    (hdecl : declaresSnippetFile examples sf) :
    (containsWinUnsafe sf = true →
      ∃ f i, ValErr.windowsUnsafeSnippetFile f i sf ∈
        (validate_snippets examples snippets sfiles errs fe).errors) ∧
    (fe sf = false →
      ∃ f i, ValErr.missingSnippetFile f i sf ∈
        (validate_snippets examples snippets sfiles errs fe).errors) ∧
    sf ∈ (validate_snippets examples snippets sfiles errs fe).snippet_files := by
  obtain ⟨ex, hex, p, hp, v, hv, exc, hexc, hsf⟩ := hdecl
  refine ⟨?_, ?_, ?_⟩
  · intro hwin
    refine ⟨ex.file, p.1 ++ ":" ++ v.sdk_version, ?_⟩
    exact validate_reach hex hp hv hexc hsf
      (fun st => ValErr.windowsUnsafeSnippetFile ex.file
        (p.1 ++ ":" ++ v.sdk_version) sf ∈ st.errors)
      (fun exF eid st sf0 h => mem_errors_processSnippetFile exF eid fe st sf0 h)
      (fun exF eid st tg h => mem_errors_processTag exF eid snippets st tg h)
      (fun st => hit_win hwin st)
  · intro hmiss
    refine ⟨ex.file, p.1 ++ ":" ++ v.sdk_version, ?_⟩
    exact validate_reach hex hp hv hexc hsf
      (fun st => ValErr.missingSnippetFile ex.file
        (p.1 ++ ":" ++ v.sdk_version) sf ∈ st.errors)
      (fun exF eid st sf0 h => mem_errors_processSnippetFile exF eid fe st sf0 h)
      (fun exF eid st tg h => mem_errors_processTag exF eid snippets st tg h)
      (fun st => hit_missing hmiss st)
  · exact validate_reach hex hp hv hexc hsf
      (fun st => sf ∈ st.snippet_files)
      (fun exF eid st sf0 h => mem_files_processSnippetFile exF eid fe st sf0 h)
      (fun exF eid st tg h => mem_files_processTag exF eid snippets st tg h)
      (fun st => hit_file_added st)

theorem claim_C8_witness :
    declaresSnippetFile
      [⟨"ex.yaml", [("py", ⟨[⟨"1", [⟨[], ["a?b"]⟩]⟩]⟩)]⟩] "a?b" ∧
    ((containsWinUnsafe "a?b" = true →
      ∃ f i, ValErr.windowsUnsafeSnippetFile f i "a?b" ∈
        (validate_snippets [⟨"ex.yaml", [("py", ⟨[⟨"1", [⟨[], ["a?b"]⟩]⟩]⟩)]⟩]
          [] [] [] (fun _ => true)).errors) ∧
    ((fun _ => true) "a?b" = false →
      ∃ f i, ValErr.missingSnippetFile f i "a?b" ∈
        (validate_snippets [⟨"ex.yaml", [("py", ⟨[⟨"1", [⟨[], ["a?b"]⟩]⟩]⟩)]⟩]
          [] [] [] (fun _ => true)).errors) ∧
    "a?b" ∈ (validate_snippets [⟨"ex.yaml", [("py", ⟨[⟨"1", [⟨[], ["a?b"]⟩]⟩]⟩)]⟩]
      [] [] [] (fun _ => true)).snippet_files) :=
  ⟨⟨⟨"ex.yaml", [("py", ⟨[⟨"1", [⟨[], ["a?b"]⟩]⟩]⟩)]⟩, by simp,
      ("py", ⟨[⟨"1", [⟨[], ["a?b"]⟩]⟩]⟩), by simp,
      ⟨"1", [⟨[], ["a?b"]⟩]⟩, by simp,
      ⟨[], ["a?b"]⟩, by simp, by simp⟩,
    claim_C8 [⟨"ex.yaml", [("py", ⟨[⟨"1", [⟨[], ["a?b"]⟩]⟩]⟩)]⟩] [] [] []
      (fun _ => true) "a?b"
      ⟨⟨"ex.yaml", [("py", ⟨[⟨"1", [⟨[], ["a?b"]⟩]⟩]⟩)]⟩, by simp,
        ("py", ⟨[⟨"1", [⟨[], ["a?b"]⟩]⟩]⟩), by simp,
        ⟨"1", [⟨[], ["a?b"]⟩]⟩, by simp,
        ⟨[], ["a?b"]⟩, by simp, by simp⟩⟩

end Snippets
